import Mathlib

/-!
Verification of the accessibility-tree synchronization and DOM-stability core
of the browser-flow repository, as a shallow embedding in Lean 4.

The definitions below are translated from the Python source:
 * `src/browser_wrapper/stagehand_page.py` (frame-ordinal registry,
   `_wait_for_settled_dom`),
 * `src/browser_wrapper/utils/a11y_utils.py` (backend-id maps, hierarchical
   tree building and cleaning, frame merging, subtree injection),
 * `src/browser_wrapper/utils/deep_locator_utils.py` (`deep_locator`).

Python dictionaries are modelled as association lists (later writes are
prepended, so `List.lookup` returns the most recent binding, or appended where
insertion order matters and keys are guarded to be fresh), Python strings as
Lean `String`/`List Char`, and CDP/network input as explicit data or oracle
functions.  Asynchronous code is modelled by explicit state passing and, for
the settle monitor, a discrete-event simulation in milliseconds.
-/

namespace BrowserFlow

/-! ## Decimal rendering of integers

Python renders `f"{ordinal}-{backend_id}"` with decimal notation.  We model
the decimal digits of a natural number directly as a list of characters so
that injectivity of the encoding is provable. -/

/-- One decimal digit character, `d` must be below 10. -/
def decDigit (d : Nat) : Char := Char.ofNat (48 + d)

/-- Decimal digit list of a natural number, most significant first
(the rendering Python uses for non-negative ints). -/
def decChars (n : Nat) : List Char :=
  if _h : n < 10 then [decDigit n]
  else decChars (n / 10) ++ [decDigit (n % 10)]
termination_by n
decreasing_by exact Nat.div_lt_self (by omega) (by omega)

theorem decChars_small {n : Nat} (h : n < 10) : decChars n = [decDigit n] := by
  rw [decChars]
  simp [h]

theorem decChars_big {n : Nat} (h : ¬ n < 10) :
    decChars n = decChars (n / 10) ++ [decDigit (n % 10)] := by
  rw [decChars]
  simp [h]

theorem decChars_ne_nil (n : Nat) : decChars n ≠ [] := by
  by_cases h : n < 10
  · rw [decChars_small h]
    simp
  · rw [decChars_big h]
    simp

theorem decDigit_inj {a b : Nat} (ha : a < 10) (hb : b < 10)
    (h : decDigit a = decDigit b) : a = b := by
  interval_cases a <;> interval_cases b <;> revert h <;> decide

theorem decDigit_ne_dash {a : Nat} (ha : a < 10) : decDigit a ≠ '-' := by
  interval_cases a <;> decide

theorem mem_decChars_digit {c : Char} {n : Nat} (h : c ∈ decChars n) :
    ∃ d, d < 10 ∧ c = decDigit d := by
  induction n using Nat.strong_induction_on with
  | _ n ih =>
    by_cases hn : n < 10
    · rw [decChars_small hn, List.mem_singleton] at h
      exact ⟨n, hn, h⟩
    · rw [decChars_big hn] at h
      rcases List.mem_append.1 h with h1 | h2
      · exact ih (n / 10) (Nat.div_lt_self (by omega) (by omega)) h1
      · rw [List.mem_singleton] at h2
        exact ⟨n % 10, Nat.mod_lt _ (by omega), h2⟩

theorem dash_not_mem_decChars (n : Nat) : '-' ∉ decChars n := by
  intro h
  obtain ⟨d, hd, he⟩ := mem_decChars_digit h
  exact decDigit_ne_dash hd he.symm

theorem decChars_length_pos (n : Nat) : 0 < (decChars n).length :=
  List.length_pos.2 (decChars_ne_nil n)

theorem decChars_length_big {n : Nat} (h : ¬ n < 10) :
    2 ≤ (decChars n).length := by
  rw [decChars_big h]
  have := decChars_length_pos (n / 10)
  simp only [List.length_append, List.length_cons, List.length_nil]
  omega

theorem decChars_inj : ∀ {a b : Nat}, decChars a = decChars b → a = b := by
  intro a
  induction a using Nat.strong_induction_on with
  | _ a ih =>
    intro b h
    by_cases ha : a < 10 <;> by_cases hb : b < 10
    · rw [decChars_small ha, decChars_small hb] at h
      simp only [List.cons.injEq, and_true] at h
      exact decDigit_inj ha hb h
    · have h2 := decChars_length_big hb
      rw [← h, decChars_small ha] at h2
      simp at h2
    · have h2 := decChars_length_big ha
      rw [h, decChars_small hb] at h2
      simp at h2
    · rw [decChars_big ha, decChars_big hb] at h
      have h3 := List.append_inj' h (by simp)
      have h4 : a / 10 = b / 10 :=
        ih (a / 10) (Nat.div_lt_self (by omega) (by omega)) h3.1
      have h5 : a % 10 = b % 10 := by
        have h6 := h3.2
        simp only [List.cons.injEq, and_true] at h6
        exact decDigit_inj (Nat.mod_lt _ (by omega)) (Nat.mod_lt _ (by omega)) h6
      omega

/-- Splitting a character list at a dash is unambiguous when neither left part
contains a dash. -/
theorem append_dash_inj :
    ∀ (l₁ : List Char) {r₁ : List Char} (l₂ : List Char) {r₂ : List Char},
      '-' ∉ l₁ → '-' ∉ l₂ → l₁ ++ '-' :: r₁ = l₂ ++ '-' :: r₂ →
      l₁ = l₂ ∧ r₁ = r₂ := by
  intro l₁
  induction l₁ with
  | nil =>
    intro r₁ l₂ r₂ _ h₂ h
    cases l₂ with
    | nil => simpa using h
    | cons c cs =>
      simp only [List.nil_append, List.cons_append, List.cons.injEq] at h
      exact absurd (h.1 ▸ List.mem_cons_self c cs) h₂
  | cons c cs ih =>
    intro r₁ l₂ r₂ h₁ h₂ h
    cases l₂ with
    | nil =>
      simp only [List.cons_append, List.nil_append, List.cons.injEq] at h
      exact absurd (h.1 ▸ List.mem_cons_self c cs) h₁
    | cons d ds =>
      simp only [List.cons_append, List.cons.injEq] at h
      obtain ⟨rfl, h⟩ := h
      have := ih ds (fun hm => h₁ (List.mem_cons_of_mem _ hm))
        (fun hm => h₂ (List.mem_cons_of_mem _ hm)) h
      exact ⟨by rw [this.1], this.2⟩

/-! ## FrameIdRegistry (`stagehand_page.py`, `ordinal_for_frame_id` /
`encode_with_frame_id` / `reset_frame_ordinals`)

`_fid_ordinals` is a Python dict `Optional[str] -> int` initialised to
`{None: 0}`.  We model the non-`None` entries as an association list in
insertion order; the fixed `None ↦ 0` entry is implicit, so the Python
`len(self._fid_ordinals)` is `1 + st.length`. -/

/-- State of the per-page frame-ordinal table (non-main entries, in insertion
order). -/
abbrev FidOrdinals := List (String × Nat)

/-- `ordinal_for_frame_id`: `None` is fixed at 0; a cached id returns its
ordinal; a fresh id allocates `len(self._fid_ordinals)`. -/
def ordinalForFrameId (st : FidOrdinals) (fid : Option String) :
    Nat × FidOrdinals :=
  match fid with
  | none => (0, st)
  | some f =>
    match st.lookup f with
    | some o => (o, st)
    | none => (1 + st.length, st ++ [(f, 1 + st.length)])

/-- `encode_with_frame_id`: the string `f"{ordinal}-{backend_id}"`. -/
def encodeWithFrameId (st : FidOrdinals) (fid : Option String)
    (backendId : Nat) : String × FidOrdinals :=
  let p := ordinalForFrameId st fid
  (⟨decChars p.1 ++ '-' :: decChars backendId⟩, p.2)

/-- `reset_frame_ordinals`: back to the initial table. -/
def resetFrameOrdinals : FidOrdinals := []

theorem ordinalForFrameId_none (st : FidOrdinals) :
    ordinalForFrameId st none = (0, st) := rfl

theorem ordinalForFrameId_cached {st : FidOrdinals} {f : String} {o : Nat}
    (h : st.lookup f = some o) : ordinalForFrameId st (some f) = (o, st) := by
  simp [ordinalForFrameId, h]

theorem ordinalForFrameId_fresh {st : FidOrdinals} {f : String}
    (h : st.lookup f = none) :
    ordinalForFrameId st (some f) = (1 + st.length, st ++ [(f, 1 + st.length)]) := by
  simp [ordinalForFrameId, h]

/-- Invariant of every table reachable from `reset_frame_ordinals`: ordinals
are exactly `1, 2, …, length` in insertion order and ids are distinct. -/
def WFOrdinals (st : FidOrdinals) : Prop :=
  st.map Prod.snd = List.range' 1 st.length ∧ (st.map Prod.fst).Nodup

theorem wfOrdinals_reset : WFOrdinals resetFrameOrdinals := by
  constructor <;> simp [resetFrameOrdinals]

theorem lookup_mem_values {st : FidOrdinals} {f : String} {o : Nat}
    (h : st.lookup f = some o) : o ∈ st.map Prod.snd := by
  induction st with
  | nil => simp at h
  | cons p rest ih =>
    rw [List.lookup] at h
    by_cases hf : f == p.1
    · simp only [hf, cond_true, Option.some.injEq] at h
      simp [← h]
    · simp only [hf, cond_false] at h
      simp [ih h]

theorem lookup_none_not_mem {st : FidOrdinals} {f : String}
    (h : st.lookup f = none) : f ∉ st.map Prod.fst := by
  induction st with
  | nil => simp
  | cons p rest ih =>
    rw [List.lookup] at h
    by_cases hf : f == p.1
    · simp [hf] at h
    · simp only [hf, cond_false] at h
      simp only [List.map_cons, List.mem_cons]
      rintro (rfl | hm)
      · simp at hf
      · exact ih h hm

theorem lookup_append_left {st : FidOrdinals} {f : String} {o : Nat}
    (h : st.lookup f = some o) (tl : FidOrdinals) :
    (st ++ tl).lookup f = some o := by
  induction st with
  | nil => simp at h
  | cons p rest ih =>
    rw [List.lookup] at h
    rw [List.cons_append, List.lookup]
    by_cases hf : f == p.1
    · simpa [hf] using h
    · simp only [hf, cond_false] at h ⊢
      exact ih h

theorem lookup_append_right {st : FidOrdinals} {f : String}
    (h : st.lookup f = none) (tl : FidOrdinals) :
    (st ++ tl).lookup f = tl.lookup f := by
  induction st with
  | nil => simp
  | cons p rest ih =>
    rw [List.lookup] at h
    rw [List.cons_append, List.lookup]
    by_cases hf : f == p.1
    · simp [hf] at h
    · simp only [hf, cond_false] at h ⊢
      exact ih h

theorem wfOrdinals_step (st : FidOrdinals) (fid : Option String)
    (hwf : WFOrdinals st) : WFOrdinals (ordinalForFrameId st fid).2 := by
  match fid with
  | none => exact hwf
  | some f =>
    cases hl : st.lookup f with
    | some o =>
      rw [ordinalForFrameId_cached hl]
      exact hwf
    | none =>
      rw [ordinalForFrameId_fresh hl]
      refine ⟨?_, ?_⟩
      · rw [List.map_append, hwf.1]
        simp only [List.map_cons, List.map_nil, List.length_append,
          List.length_cons, List.length_nil]
        rw [List.range'_concat]
        simp [Nat.add_comm]
      · rw [List.map_append]
        simp only [List.map_cons, List.map_nil]
        refine List.Nodup.append hwf.2 (by simp) ?_
        intro a ha hb
        simp only [List.mem_singleton] at hb
        subst hb
        exact lookup_none_not_mem hl ha

theorem ordinal_some_pos {st : FidOrdinals} (hwf : WFOrdinals st) (f : String) :
    1 ≤ (ordinalForFrameId st (some f)).1 := by
  cases hl : st.lookup f with
  | some o =>
    rw [ordinalForFrameId_cached hl]
    have hm := lookup_mem_values hl
    rw [hwf.1] at hm
    have := List.mem_range'_1.1 hm
    omega
  | none =>
    rw [ordinalForFrameId_fresh hl]
    omega

theorem ordinal_cached_le {st : FidOrdinals} (hwf : WFOrdinals st) {f : String}
    {o : Nat} (h : st.lookup f = some o) : o ≤ st.length := by
  have hm := lookup_mem_values h
  rw [hwf.1] at hm
  have := List.mem_range'_1.1 hm
  omega

/-- Distinct frame ids held in a table with distinct values have distinct
ordinals. -/
theorem lookup_values_distinct {st : FidOrdinals}
    (hvd : (st.map Prod.snd).Nodup) {f₁ f₂ : String} {o₁ o₂ : Nat}
    (hne : f₁ ≠ f₂) (h₁ : st.lookup f₁ = some o₁) (h₂ : st.lookup f₂ = some o₂) :
    o₁ ≠ o₂ := by
  induction st with
  | nil => simp at h₁
  | cons p rest ih =>
    rw [List.lookup] at h₁ h₂
    simp only [List.map_cons, List.nodup_cons] at hvd
    by_cases hf1 : f₁ == p.1
    · have hf2 : ¬ (f₂ == p.1) := by
        simp only [beq_iff_eq] at hf1 ⊢
        exact fun hq => hne (hf1.trans hq.symm)
      simp only [hf1, cond_true, Option.some.injEq] at h₁
      simp only [hf2, cond_false] at h₂
      intro he
      apply hvd.1
      have hm := lookup_mem_values h₂
      rw [h₁, he]
      exact hm
    · by_cases hf2 : f₂ == p.1
      · simp only [hf2, cond_true, Option.some.injEq] at h₂
        simp only [hf1, cond_false] at h₁
        intro he
        apply hvd.1
        have hm := lookup_mem_values h₁
        rw [h₂, ← he]
        exact hm
      · simp only [hf1, cond_false] at h₁
        simp only [hf2, cond_false] at h₂
        exact ih hvd.2 h₁ h₂

/-- A sequence of further `ordinal_for_frame_id` calls, threading the table. -/
def runCalls (st : FidOrdinals) : List (Option String) → FidOrdinals
  | [] => st
  | fid :: rest => runCalls (ordinalForFrameId st fid).2 rest

theorem lookup_step_preserved {st : FidOrdinals} {f : String} {o : Nat}
    (h : st.lookup f = some o) (fid : Option String) :
    (ordinalForFrameId st fid).2.lookup f = some o := by
  match fid with
  | none => exact h
  | some g =>
    cases hl : st.lookup g with
    | some o₂ => rw [ordinalForFrameId_cached hl]; exact h
    | none => rw [ordinalForFrameId_fresh hl]; exact lookup_append_left h _

theorem lookup_runCalls_preserved {st : FidOrdinals} {f : String} {o : Nat}
    (h : st.lookup f = some o) :
    ∀ fids : List (Option String), (runCalls st fids).lookup f = some o := by
  intro fids
  induction fids generalizing st with
  | nil => exact h
  | cons fid rest ih => exact ih (lookup_step_preserved h fid)

theorem first_call_lookup (st : FidOrdinals) (f : String) :
    (ordinalForFrameId st (some f)).2.lookup f
      = some (ordinalForFrameId st (some f)).1 := by
  cases hl : st.lookup f with
  | some o => rw [ordinalForFrameId_cached hl]; exact hl
  | none =>
    rw [ordinalForFrameId_fresh hl]
    rw [lookup_append_right hl]
    simp [List.lookup]

theorem wfOrdinals_values_nodup {st : FidOrdinals} (hwf : WFOrdinals st) :
    (st.map Prod.snd).Nodup := by
  rw [hwf.1]
  exact List.nodup_range' _ _

/-- Distinct (possibly `None`) frame ids presented in sequence receive
distinct ordinals. -/
theorem ordinal_distinct {st : FidOrdinals} (hwf : WFOrdinals st)
    {f₁ f₂ : Option String} (hne : f₁ ≠ f₂) :
    (ordinalForFrameId (ordinalForFrameId st f₁).2 f₂).1
      ≠ (ordinalForFrameId st f₁).1 := by
  match f₁, f₂ with
  | none, none => exact absurd rfl hne
  | none, some g₂ =>
    simp only [ordinalForFrameId_none]
    have := ordinal_some_pos hwf g₂
    omega
  | some g₁, none =>
    simp only [ordinalForFrameId_none]
    have := ordinal_some_pos hwf g₁
    omega
  | some g₁, some g₂ =>
    have hgne : g₁ ≠ g₂ := by
      intro h
      exact hne (by rw [h])
    cases hl₁ : st.lookup g₁ with
    | some o₁ =>
      rw [ordinalForFrameId_cached hl₁]
      cases hl₂ : st.lookup g₂ with
      | some o₂ =>
        rw [ordinalForFrameId_cached hl₂]
        exact lookup_values_distinct (wfOrdinals_values_nodup hwf) hgne.symm hl₂ hl₁
      | none =>
        rw [ordinalForFrameId_fresh hl₂]
        have := ordinal_cached_le hwf hl₁
        simp only
        omega
    | none =>
      rw [ordinalForFrameId_fresh hl₁]
      simp only
      cases hl₂ : st.lookup g₂ with
      | some o₂ =>
        have h₂ : (st ++ [(g₁, 1 + st.length)]).lookup g₂ = some o₂ :=
          lookup_append_left hl₂ _
        rw [ordinalForFrameId_cached h₂]
        have := ordinal_cached_le hwf hl₂
        simp only
        omega
      | none =>
        have h₂ : (st ++ [(g₁, 1 + st.length)]).lookup g₂ = none := by
          rw [lookup_append_right hl₂]
          have hb : (g₂ == g₁) = false := beq_eq_false_iff_ne.2 hgne.symm
          simp [List.lookup, hb]
        rw [ordinalForFrameId_fresh h₂]
        simp only [List.length_append, List.length_cons, List.length_nil]
        omega

/-- **C4.** Within one page lifetime (no `reset_frame_ordinals`):
`ordinal_for_frame_id(None)` is always 0 and leaves the table unchanged;
repeated calls with the same frame id return the same ordinal even after any
sequence of intervening calls (deterministic, idempotent); distinct frame ids
receive distinct ordinals; hence `encode_with_frame_id` maps distinct
`(frameId, backendId)` pairs to distinct `EncodedId` strings and the same pair
always to the same string. -/
theorem c4_frame_id_registry (st : FidOrdinals) (hwf : WFOrdinals st) :
    (ordinalForFrameId st none = (0, st))
    ∧ (∀ (fid : Option String) (fids : List (Option String)),
        (ordinalForFrameId (runCalls (ordinalForFrameId st fid).2 fids) fid).1
          = (ordinalForFrameId st fid).1)
    ∧ (∀ f₁ f₂ : Option String, f₁ ≠ f₂ →
        (ordinalForFrameId (ordinalForFrameId st f₁).2 f₂).1
          ≠ (ordinalForFrameId st f₁).1)
    ∧ (∀ (f₁ f₂ : Option String) (b₁ b₂ : Nat), (f₁, b₁) ≠ (f₂, b₂) →
        (encodeWithFrameId (encodeWithFrameId st f₁ b₁).2 f₂ b₂).1
          ≠ (encodeWithFrameId st f₁ b₁).1)
    ∧ (∀ (f : Option String) (b : Nat),
        (encodeWithFrameId (encodeWithFrameId st f b).2 f b).1
          = (encodeWithFrameId st f b).1) := by
  have hstable : ∀ (fid : Option String) (fids : List (Option String)),
      (ordinalForFrameId (runCalls (ordinalForFrameId st fid).2 fids) fid).1
        = (ordinalForFrameId st fid).1 := by
    intro fid fids
    match fid with
    | none => rw [ordinalForFrameId_none, ordinalForFrameId_none]
    | some f =>
      have h := lookup_runCalls_preserved (first_call_lookup st f) fids
      rw [ordinalForFrameId_cached h]
  have hdist : ∀ f₁ f₂ : Option String, f₁ ≠ f₂ →
      (ordinalForFrameId (ordinalForFrameId st f₁).2 f₂).1
        ≠ (ordinalForFrameId st f₁).1 := fun f₁ f₂ h => ordinal_distinct hwf h
  refine ⟨rfl, hstable, hdist, ?_, ?_⟩
  · intro f₁ f₂ b₁ b₂ hne heq
    rw [encodeWithFrameId, encodeWithFrameId] at heq
    simp only at heq
    rw [String.ext_iff] at heq
    simp only at heq
    have hsplit := append_dash_inj _ _ (dash_not_mem_decChars _)
      (dash_not_mem_decChars _) heq
    have hb : b₂ = b₁ := decChars_inj hsplit.2
    have ho : (ordinalForFrameId (ordinalForFrameId st f₁).2 f₂).1
        = (ordinalForFrameId st f₁).1 := decChars_inj hsplit.1
    by_cases hf : f₁ = f₂
    · exact hne (by rw [hf, hb])
    · exact ordinal_distinct hwf hf ho
  · intro f b
    rw [encodeWithFrameId, encodeWithFrameId]
    simp only
    rw [String.ext_iff]
    simp only
    have := hstable f []
    rw [runCalls] at this
    rw [this]

/-- Closed witness for C4 at the freshly reset table. -/
theorem c4_frame_id_registry_witness :
    WFOrdinals []
    ∧ ((ordinalForFrameId [] none = (0, []))
      ∧ (∀ (fid : Option String) (fids : List (Option String)),
          (ordinalForFrameId (runCalls (ordinalForFrameId [] fid).2 fids) fid).1
            = (ordinalForFrameId [] fid).1)
      ∧ (∀ f₁ f₂ : Option String, f₁ ≠ f₂ →
          (ordinalForFrameId (ordinalForFrameId [] f₁).2 f₂).1
            ≠ (ordinalForFrameId [] f₁).1)
      ∧ (∀ (f₁ f₂ : Option String) (b₁ b₂ : Nat), (f₁, b₁) ≠ (f₂, b₂) →
          (encodeWithFrameId (encodeWithFrameId [] f₁ b₁).2 f₂ b₂).1
            ≠ (encodeWithFrameId [] f₁ b₁).1)
      ∧ (∀ (f : Option String) (b : Nat),
          (encodeWithFrameId (encodeWithFrameId [] f b).2 f b).1
            = (encodeWithFrameId [] f b).1)) :=
  ⟨by constructor <;> simp, c4_frame_id_registry [] (by constructor <;> simp)⟩

/-! ## DomSettleMonitor (`stagehand_page.py`, `_wait_for_settled_dom`)

The event-handler closures mutate four pieces of state: the `inflight` request
id set, the `meta` dict (request id ↦ url and start time), the `doc_by_frame`
dict (frame id ↦ document request id) and the pending quiet timer.  We model
the quiet timer by its absolute deadline in milliseconds.  The asynchronous
wait itself is modelled further below as a discrete-event simulation. -/

/-- Mutable state shared by the `_wait_for_settled_dom` closures. -/
structure SettleState where
  inflight : List String
  meta : List (String × String × Nat)
  docByFrame : List (String × String)
  quietDeadline : Option Nat
  deriving Repr, DecidableEq

/-- Python dict write `d[k] = v`: update in place if present, else append. -/
def dictWrite (m : List (String × String)) (key val : String) :
    List (String × String) :=
  if (m.lookup key).isSome then
    m.map (fun p => if p.1 == key then (p.1, val) else p)
  else m ++ [(key, val)]

/-- Python dict write for the request-meta dict. -/
def dictWriteMeta (m : List (String × String × Nat)) (key : String)
    (val : String × Nat) : List (String × String × Nat) :=
  if (m.lookup key).isSome then
    m.map (fun p => if p.1 == key then (p.1, val) else p)
  else m ++ [(key, val)]

/-- `clear_quiet`: cancel a pending quiet timer. -/
def clearQuiet (st : SettleState) : SettleState :=
  { st with quietDeadline := none }

/-- `maybe_quiet`: arm the 500 ms quiet timer when nothing is in flight and
no timer is pending. -/
def maybeQuiet (now : Nat) (st : SettleState) : SettleState :=
  if st.inflight.length = 0 ∧ st.quietDeadline = none then
    { st with quietDeadline := some (now + 500) }
  else st

/-- `finish_req`: remove a finished request; a request id that is not
in flight returns immediately. -/
def finishReq (now : Nat) (requestId : String) (st : SettleState) :
    SettleState :=
  if requestId ∉ st.inflight then st
  else
    let st' : SettleState :=
      { st with
        inflight := st.inflight.erase requestId
        meta := st.meta.filter (fun p => ¬ p.1 == requestId)
        docByFrame := st.docByFrame.filter (fun p => ¬ p.2 == requestId) }
    maybeQuiet now (clearQuiet st')

/-- One CDP network/page event consumed by the settle monitor. -/
inductive NetEvent where
  | requestWillBeSent (requestId rtype url : String) (frameId : Option String)
  | loadingFinished (requestId : String)
  | loadingFailed (requestId : String)
  | requestServedFromCache (requestId : String)
  | responseReceived (requestId url : String)
  | frameStoppedLoading (frameId : String)
  deriving Repr, DecidableEq

/-- `on_request`: track a new request (WebSocket/EventSource excluded);
Document requests are also indexed by owning frame. -/
def onRequest (now : Nat) (requestId rtype url : String)
    (frameId : Option String) (st : SettleState) : SettleState :=
  if rtype = "WebSocket" ∨ rtype = "EventSource" then st
  else
    let st' : SettleState :=
      { st with
        inflight :=
          if requestId ∈ st.inflight then st.inflight
          else st.inflight ++ [requestId]
        meta := dictWriteMeta st.meta requestId (url, now) }
    let st'' : SettleState :=
      match frameId with
      | some fid =>
        if rtype = "Document" then
          { st' with docByFrame := dictWrite st'.docByFrame fid requestId }
        else st'
      | none => st'
    clearQuiet st''

/-- Event dispatch: the six registered listeners. -/
def handleEvent (now : Nat) (ev : NetEvent) (st : SettleState) : SettleState :=
  match ev with
  | .requestWillBeSent rid rtype url fid => onRequest now rid rtype url fid st
  | .loadingFinished rid => finishReq now rid st
  | .loadingFailed rid => finishReq now rid st
  | .requestServedFromCache rid => finishReq now rid st
  | .responseReceived rid url =>
    if url.startsWith "data:" then finishReq now rid st else st
  | .frameStoppedLoading fid =>
    match st.docByFrame.lookup fid with
    | some rid => finishReq now rid st
    | none => st

/-- **C10.** Delivering a finish/fail/cache/data-url event for a request id
that is not in the in-flight set (for example a WebSocket or EventSource
request that was never tracked) is a no-op: the in-flight set, the request
metadata map, the frame-to-document-request map and the quiet-timer state are
all left unchanged. -/
theorem c10_untracked_finish_noop (now : Nat) (requestId : String)
    (st : SettleState) (h : requestId ∉ st.inflight) :
    finishReq now requestId st = st
    ∧ handleEvent now (.loadingFinished requestId) st = st
    ∧ handleEvent now (.loadingFailed requestId) st = st
    ∧ handleEvent now (.requestServedFromCache requestId) st = st
    ∧ ∀ url : String, handleEvent now (.responseReceived requestId url) st = st := by
  have hf : finishReq now requestId st = st := by
    rw [finishReq]
    simp [h]
  refine ⟨hf, hf, hf, hf, ?_⟩
  intro url
  rw [handleEvent]
  split
  · exact hf
  · rfl

/-- Closed witness for C10: an untracked WebSocket-style request id delivered
to a state that is tracking a different request. -/
theorem c10_untracked_finish_noop_witness :
    ("ws-9" ∉ (SettleState.mk ["r1"] [("r1", "http://a", 0)] [("f1", "r1")]
        none).inflight)
    ∧ (finishReq 700 "ws-9" (SettleState.mk ["r1"] [("r1", "http://a", 0)]
        [("f1", "r1")] none)
        = SettleState.mk ["r1"] [("r1", "http://a", 0)] [("f1", "r1")] none
      ∧ handleEvent 700 (.loadingFinished "ws-9")
          (SettleState.mk ["r1"] [("r1", "http://a", 0)] [("f1", "r1")] none)
        = SettleState.mk ["r1"] [("r1", "http://a", 0)] [("f1", "r1")] none
      ∧ handleEvent 700 (.loadingFailed "ws-9")
          (SettleState.mk ["r1"] [("r1", "http://a", 0)] [("f1", "r1")] none)
        = SettleState.mk ["r1"] [("r1", "http://a", 0)] [("f1", "r1")] none
      ∧ handleEvent 700 (.requestServedFromCache "ws-9")
          (SettleState.mk ["r1"] [("r1", "http://a", 0)] [("f1", "r1")] none)
        = SettleState.mk ["r1"] [("r1", "http://a", 0)] [("f1", "r1")] none
      ∧ ∀ url : String, handleEvent 700 (.responseReceived "ws-9" url)
          (SettleState.mk ["r1"] [("r1", "http://a", 0)] [("f1", "r1")] none)
        = SettleState.mk ["r1"] [("r1", "http://a", 0)] [("f1", "r1")] none) :=
  ⟨by decide, c10_untracked_finish_noop 700 "ws-9" _ (by decide)⟩

/-! ### Discrete-event simulation of one `_wait_for_settled_dom` call

Timers, in milliseconds: the quiet window is 500 ms; the stalled-request
sweeper wakes every 500 ms and force-removes every request open for more than
2000 ms; the ceiling (default 30000 ms) always resolves.  At equal deadlines
the quiet timer runs first (it was armed before the sweeper task first ran),
then a pending external event, then the sweeper, then the ceiling. -/

/-- One pass of `sweep_stalled_requests` at time `now`: force-remove every
request open for more than 2 s (the loop logs each removal and does not touch
`doc_by_frame`), then `maybe_quiet`. -/
def sweepOnce (now : Nat) (st : SettleState) : SettleState × Nat :=
  let stale := st.meta.filter (fun p => 2000 < now - p.2.2)
  let st' : SettleState :=
    { st with
      inflight := st.inflight.filter (fun r => ¬ stale.any (fun p => p.1 == r))
      meta := st.meta.filter (fun p => ¬ 2000 < now - p.2.2) }
  (maybeQuiet now st', stale.length)

/-- Outcome of one simulated `_wait_for_settled_dom` call. -/
structure SimResult where
  resolvedAt : Nat
  stalledLogCount : Nat
  timeoutLoggedCount : Option Nat
  deriving Repr, DecidableEq

/-- Earliest due deadline among quiet timer, next external event, sweeper tick
and ceiling (absent candidates never precede the ceiling). -/
def minTime (tq te : Option Nat) (ts tt : Nat) : Nat :=
  min (min (tq.getD tt) (te.getD tt)) (min ts tt)

/-- Drive the monitor forward: consume timed external events and timer firings
in time order until the quiet timer or the ceiling resolves the wait. -/
def simulate (fuel : Nat) (pending : List (Nat × NetEvent)) (st : SettleState)
    (nextSweep timeoutAt stalledLogs : Nat) : Option SimResult :=
  match fuel with
  | 0 => none
  | fuel + 1 =>
    let tq := st.quietDeadline
    let te := pending.head?.map Prod.fst
    let next := minTime tq te nextSweep timeoutAt
    if tq = some next then
      some ⟨next, stalledLogs, none⟩
    else
      match pending with
      | (t, ev) :: rest =>
        if t = next then
          simulate fuel rest (handleEvent t ev st) nextSweep timeoutAt
            stalledLogs
        else if nextSweep = next then
          let p := sweepOnce next st
          simulate fuel pending p.1 (next + 500) timeoutAt
            (stalledLogs + p.2)
        else
          some ⟨timeoutAt, stalledLogs,
            if 0 < st.inflight.length then some st.inflight.length else none⟩
      | [] =>
        if nextSweep = next then
          let p := sweepOnce next st
          simulate fuel [] p.1 (next + 500) timeoutAt (stalledLogs + p.2)
        else
          some ⟨timeoutAt, stalledLogs,
            if 0 < st.inflight.length then some st.inflight.length else none⟩

/-- One `_wait_for_settled_dom(timeout_ms)` call over a timed stream of CDP
events: state starts empty, `maybe_quiet()` runs once at time 0, the sweeper
first wakes at 500 ms and the ceiling fires at `timeoutMs`. -/
def waitForSettledDom (timeoutMs : Nat) (events : List (Nat × NetEvent)) :
    Option SimResult :=
  let st0 : SettleState := ⟨[], [], [], none⟩
  simulate (events.length + timeoutMs / 500 + 2) events (maybeQuiet 0 st0)
    500 timeoutMs 0

/-- **C1 counterexample.** A single tracked request (started at 100 ms, never
finished, failed, cached or answered with a data url) does not keep
`wait_for_settled_dom` busy until the default 30 000 ms ceiling: the stalled
sweep clears it and the call resolves at 3000 ms without ever logging an
outstanding-request count. -/
theorem c1_never_finishing_request_counterexample :
    waitForSettledDom 30000
        [(100, .requestWillBeSent "r1" "XHR" "http://ads.example/x" none)]
      = some ⟨3000, 1, none⟩
    ∧ (3000 : Nat) ≠ 30000 := by
  constructor
  · rfl
  · decide

/-- **C1 (amended).** With zero in-flight requests and no network activity the
call resolves after one 500 ms quiet window; a tracked request that never
receives a finish/fail/cache/data-url event is force-removed by the stalled
sweep once open for more than 2 s (at the 2500 ms tick for a request started
at 100 ms), logged once as stalled, and the call resolves one quiet window
later at 3000 ms — the 30 000 ms ceiling is not reached and no
outstanding-request count is logged. -/
theorem c1_settle_timing_amended :
    waitForSettledDom 30000 [] = some ⟨500, 0, none⟩
    ∧ waitForSettledDom 30000
        [(100, .requestWillBeSent "r1" "XHR" "http://ads.example/x" none)]
      = some ⟨3000, 1, none⟩ :=
  ⟨rfl, rfl⟩

/-! ## DeepLocatorResolver (`deep_locator_utils.py`, `deep_locator`)

`IFRAME_STEP_RE = re.compile(r'^iframe(\[[^\]]+])?$', re.IGNORECASE)`.
The locator context is summarised by the ordered list of frame selectors the
resolver descended through (each `ctx.frame_locator(selector)` call) plus the
final selector passed to `ctx.locator`. -/

/-- Matcher for the closing part `[^\]]+]` after the opening bracket: at
least one non-`]` character, then the closing bracket, then end of input. -/
def closeTail : List Char → Bool
  | [] => false
  | [c] => c == ']'
  | c :: rest => c != ']' && closeTail rest

/-- Matcher for the optional `(\[[^\]]+])?$` suffix of `IFRAME_STEP_RE`. -/
def iframeSuffix : List Char → Bool
  | [] => true
  | '[' :: c :: rest => c != ']' && closeTail (c :: rest) && true
  | _ => false

/-- `IFRAME_STEP_RE.match(step)`: the tag `iframe` (case-insensitive) with an
optional index predicate. -/
def iframeStepMatch (s : String) : Bool :=
  match s.data with
  | c1 :: c2 :: c3 :: c4 :: c5 :: c6 :: rest =>
    c1.toLower == 'i' && c2.toLower == 'f' && c3.toLower == 'r'
      && c4.toLower == 'a' && c5.toLower == 'm' && c6.toLower == 'e'
      && iframeSuffix rest
  | _ => false

/-- The step-buffering loop of `deep_locator`: returns the frame selectors
flushed by `flush_into_frame`, in descent order, and the remaining buffer. -/
def deepLocatorSteps (steps : List String) : List String × List String :=
  steps.foldl
    (fun (acc : List String × List String) step =>
      let buf := acc.2 ++ [step]
      if iframeStepMatch step then
        (acc.1 ++ ["xpath=/" ++ String.intercalate "/" buf], [])
      else (acc.1, buf))
    ([], [])

/-- Python `str.split(sep)` for a single-character separator, on the
character list. -/
def splitChar (sep : Char) : List Char → List (List Char)
  | [] => [[]]
  | c :: rest =>
    let r := splitChar sep rest
    if c = sep then [] :: r
    else
      match r with
      | h :: t => (c :: h) :: t
      | [] => [[c]]

/-- Python `str.split('/')` on the character list. -/
def splitSlash (cs : List Char) : List (List Char) := splitChar '/' cs

/-- Prepend a slash unless the path already starts with one. -/
def normalizeSlash (cs : List Char) : List Char :=
  match cs with
  | '/' :: _ => cs
  | _ => '/' :: cs

/-- `[s for s in xpath.split('/') if s]` after slash normalisation. -/
def xpathSteps (xpath : String) : List String :=
  ((splitSlash (normalizeSlash xpath.data)).map String.mk).filter
    (fun s => s ≠ "")

/-- `deep_locator(root, xpath)`: normalise the leading slash, split into
steps, descend at iframe steps, and resolve the remaining buffer in the last
context. -/
def deepLocator (xpath : String) : List String × String :=
  let p := deepLocatorSteps (xpathSteps xpath)
  (p.1, "xpath=/" ++ String.intercalate "/" p.2)

theorem deepLocatorSteps_count (steps : List String) :
    ∀ acc : List String × List String,
      (steps.foldl
        (fun (acc : List String × List String) step =>
          let buf := acc.2 ++ [step]
          if iframeStepMatch step then
            (acc.1 ++ ["xpath=/" ++ String.intercalate "/" buf], [])
          else (acc.1, buf)) acc).1.length
      = acc.1.length + steps.countP (fun s => iframeStepMatch s) := by
  induction steps with
  | nil => intro acc; simp
  | cons step rest ih =>
    intro acc
    rw [List.foldl_cons, List.countP_cons]
    by_cases h : iframeStepMatch step
    · simp only [h, if_true]
      rw [ih]
      simp [h]
      omega
    · simp only [h, if_false]
      rw [ih]
      simp [h]

/-- **C8.** On `/html/body/iframe[1]/div/iframe[2]/span[3]` the resolver
descends exactly two iframe contexts — first `xpath=/html/body/iframe[1]`,
then `xpath=/div/iframe[2]` — and resolves the final element with
`xpath=/span[3]` inside the second frame; in general a frame descent occurs
exactly for each buffered step matching the iframe pattern (tag `iframe`,
optional index predicate, case-insensitive). -/
theorem c8_deep_locator :
    deepLocator "/html/body/iframe[1]/div/iframe[2]/span[3]"
      = (["xpath=/html/body/iframe[1]", "xpath=/div/iframe[2]"],
         "xpath=/span[3]")
    ∧ (∀ xpath : String,
        (deepLocator xpath).1.length
          = (xpathSteps xpath).countP (fun s => iframeStepMatch s))
    ∧ iframeStepMatch "iframe" = true
    ∧ iframeStepMatch "iframe[1]" = true
    ∧ iframeStepMatch "IFRAME[27]" = true
    ∧ iframeStepMatch "iframe[]" = false
    ∧ iframeStepMatch "div[1]" = false
    ∧ iframeStepMatch "iframes[1]" = false := by
  refine ⟨by decide, ?_, by rfl, by rfl, by rfl, by rfl, by rfl, by rfl⟩
  intro xpath
  rw [deepLocator]
  simp only
  rw [deepLocatorSteps, deepLocatorSteps_count]
  simp

/-! ## Python string helpers used by the HierarchyBuilder
(`a11y_utils.py`, `normalise_spaces` and Python `str.strip`) -/

/-- Python whitespace characters relevant to `str.strip()` (ASCII set). -/
def isPySpace (c : Char) : Bool :=
  c == ' ' || c == '\t' || c == '\n' || c == '\r'
    || c == Char.ofNat 11 || c == Char.ofNat 12

/-- Python `str.strip()`: trim leading and trailing whitespace. -/
def pyStrip (s : String) : String :=
  ⟨((s.data.dropWhile isPySpace).reverse.dropWhile isPySpace).reverse⟩

/-- Character loop of `normalise_spaces`: collapse runs of space, tab,
newline and carriage return into single ASCII spaces. -/
def normSpacesAux : List Char → Bool → List Char
  | [], _ => []
  | c :: rest, inWs =>
    if c.toNat = 32 ∨ c.toNat = 9 ∨ c.toNat = 10 ∨ c.toNat = 13 then
      if inWs then normSpacesAux rest true
      else ' ' :: normSpacesAux rest true
    else c :: normSpacesAux rest false

/-- `normalise_spaces`. -/
def normaliseSpaces (s : String) : String := ⟨normSpacesAux s.data false⟩

/-! ## HierarchyBuilder cleanup pass (`a11y_utils.py`,
`clean_structural_nodes` and `remove_redundant_static_text_children`)

An `ANode` models the mutable node dictionaries after pass 2 of
`build_hierarchical_tree`: the fields the cleanup pass reads and writes
(`nodeId`, `role`, `name`, `encodedId`, `children`); the remaining fields
(`description`, `value`, `backendDOMNodeId`) are carried through `{**node}`
unchanged and do not influence the pass. -/

/-- An accessibility node during the cleanup pass. -/
inductive ANode where
  | mk (nodeId : Int) (role : String) (name : Option String)
      (encodedId : Option String) (children : List ANode)

def ANode.nodeId : ANode → Int
  | .mk i _ _ _ _ => i

def ANode.role : ANode → String
  | .mk _ r _ _ _ => r

def ANode.name : ANode → Option String
  | .mk _ _ n _ _ => n

def ANode.encodedId : ANode → Option String
  | .mk _ _ _ e _ => e

def ANode.children : ANode → List ANode
  | .mk _ _ _ _ c => c

/-- The `none`/`generic` structural-role test used throughout the cleanup
pass. -/
def isStructuralRole (r : String) : Bool := r == "generic" || r == "none"

/-- Steps 4 of `clean_structural_nodes`: replace a structural role by its
resolvable tag name, and rewrite a `select`-backed `combobox` to `select`. -/
def cleanedRole (m : List (String × String)) (role : String)
    (encodedId : Option String) : String :=
  let role1 :=
    if isStructuralRole role then
      match encodedId with
      | some e =>
        match m.lookup e with
        | some tag => tag
        | none => role
      | none => role
    else role
  let selectBacked : Bool :=
    match encodedId with
    | some e => m.lookup e == some "select"
    | none => false
  if role1 == "combobox" && selectBacked then "select" else role1

/-- Concatenation of the normalised, stripped names of the StaticText
children (the `combined_text` accumulator of
`remove_redundant_static_text_children`). -/
def staticTextCombined (children : List ANode) : String :=
  children.foldl
    (fun acc c =>
      if c.role == "StaticText" then
        match c.name with
        | some cn => if cn = "" then acc else acc ++ pyStrip (normaliseSpaces cn)
        | none => acc
      else acc) ""

/-- `remove_redundant_static_text_children`: drop StaticText children whose
concatenated, whitespace-normalised text equals the parent's normalised name
(an absent or empty parent name compares nothing). -/
def removeRedundantStaticTextChildren (parent : ANode)
    (children : List ANode) : List ANode :=
  match parent.name with
  | none => children
  | some nm =>
    if nm = "" then children
    else
      let parentNorm := pyStrip (normaliseSpaces nm)
      if staticTextCombined children = parentNorm then
        children.filter (fun c => ¬ c.role == "StaticText")
      else children

mutual

/-- `clean_structural_nodes`: recursively prune or collapse structural
(`generic`/`none`) wrappers, rename resolvable structural roles to their tag
names, rewrite select-backed comboboxes, and strip redundant StaticText
children. -/
def cleanStructuralNodes (m : List (String × String)) : ANode → Option ANode
  | .mk nodeId role name encodedId children =>
    if nodeId < 0 then none
    else
      match children with
      | [] =>
        if isStructuralRole role then none
        else some (.mk nodeId role name encodedId [])
      | c0 :: cs =>
        let cleanedChildren := cleanChildrenList m (c0 :: cs)
        if isStructuralRole role && cleanedChildren.length == 1 then
          cleanedChildren.head?
        else if isStructuralRole role && cleanedChildren.length == 0 then none
        else
          let role2 := cleanedRole m role encodedId
          let pruned := removeRedundantStaticTextChildren
            (.mk nodeId role2 name encodedId children) cleanedChildren
          if pruned.isEmpty && isStructuralRole role2 then none
          else some (.mk nodeId role2 name encodedId pruned)

/-- The per-child recursion of `clean_structural_nodes` step 2: clean each
child in order and keep the non-null results. -/
def cleanChildrenList (m : List (String × String)) : List ANode → List ANode
  | [] => []
  | c :: cs =>
    match cleanStructuralNodes m c with
    | some c2 => c2 :: cleanChildrenList m cs
    | none => cleanChildrenList m cs

end

/-- A `generic` parent named "x" with a StaticText child "x" and a button
child: one cleanup pass removes the redundant StaticText, leaving a
one-child generic wrapper. -/
def exParent : ANode :=
  .mk 1 "generic" (some "x") none
    [.mk 2 "StaticText" (some "x") none [], .mk 3 "button" (some "b") none []]

/-- The cleaned form of `exParent`: still `generic`, now with one child. -/
def exOnce : ANode :=
  .mk 1 "generic" (some "x") none [.mk 3 "button" (some "b") none []]

/-- **C2 counterexample.** The cleanup pass is not a fixpoint on its own
output: cleaning `exParent` yields `exOnce` (a generic wrapper left with a
single child by redundant-StaticText removal), and cleaning `exOnce` again
collapses the wrapper to the button, a different tree. -/
theorem c2_clean_fixpoint_counterexample :
    cleanStructuralNodes [] exParent = some exOnce
    ∧ cleanStructuralNodes [] exOnce
        = some (.mk 3 "button" (some "b") none [])
    ∧ cleanStructuralNodes [] exOnce ≠ some exOnce := by
  refine ⟨?_, ?_, ?_⟩ <;>
    simp [cleanStructuralNodes, cleanChildrenList, cleanedRole,
      removeRedundantStaticTextChildren, staticTextCombined, isStructuralRole,
      exParent, exOnce, pyStrip, normaliseSpaces, normSpacesAux, isPySpace,
      ANode.role, ANode.name]

mutual

/-- No node of the tree has a structural (`generic`/`none`) role together
with exactly one child — the single pattern on which one further cleanup
pass still changes the tree. -/
def ANode.noLone : ANode → Bool
  | .mk _ role _ _ children =>
    !(isStructuralRole role && children.length == 1) && ANode.noLoneList children

/-- `ANode.noLone` over a list of children. -/
def ANode.noLoneList : List ANode → Bool
  | [] => true
  | c :: cs => c.noLone && ANode.noLoneList cs

end

theorem noLoneList_mem {cs : List ANode} (h : ANode.noLoneList cs = true)
    {x : ANode} (hx : x ∈ cs) : x.noLone = true := by
  induction cs with
  | nil => simp at hx
  | cons c rest ih =>
    rw [ANode.noLoneList, Bool.and_eq_true] at h
    rcases List.mem_cons.1 hx with rfl | hx2
    · exact h.1
    · exact ih h.2 hx2

theorem mem_cleanChildrenList {m : List (String × String)} :
    ∀ {ts : List ANode} {u : ANode}, u ∈ cleanChildrenList m ts →
      ∃ c ∈ ts, cleanStructuralNodes m c = some u := by
  intro ts
  induction ts with
  | nil => intro u h; rw [cleanChildrenList] at h; simp at h
  | cons c cs ih =>
    intro u h
    rw [cleanChildrenList] at h
    cases hc : cleanStructuralNodes m c with
    | some c2 =>
      rw [hc] at h
      rcases List.mem_cons.1 h with rfl | h2
      · exact ⟨c, List.mem_cons_self c cs, hc⟩
      · obtain ⟨d, hd, hdu⟩ := ih h2
        exact ⟨d, List.mem_cons_of_mem c hd, hdu⟩
    | none =>
      rw [hc] at h
      obtain ⟨d, hd, hdu⟩ := ih h
      exact ⟨d, List.mem_cons_of_mem c hd, hdu⟩

theorem cleanChildrenList_id {m : List (String × String)} :
    ∀ {us : List ANode}, (∀ x ∈ us, cleanStructuralNodes m x = some x) →
      cleanChildrenList m us = us := by
  intro us
  induction us with
  | nil => intro _; rw [cleanChildrenList]
  | cons c cs ih =>
    intro h
    rw [cleanChildrenList, h c (List.mem_cons_self c cs),
      ih (fun x hx => h x (List.mem_cons_of_mem c hx))]

theorem removeRedundant_subset {p : ANode} {cs : List ANode} :
    ∀ x ∈ removeRedundantStaticTextChildren p cs, x ∈ cs := by
  intro x hx
  rw [removeRedundantStaticTextChildren] at hx
  rcases hn : p.name with _ | nm
  · rwa [hn] at hx
  · rw [hn] at hx
    by_cases he : nm = ""
    · simpa [he] using hx
    · simp only [he, if_false] at hx
      split at hx
      · exact List.mem_of_mem_filter hx
      · exact hx

theorem removeRedundant_name_only {p q : ANode} (h : p.name = q.name)
    (cs : List ANode) :
    removeRedundantStaticTextChildren p cs
      = removeRedundantStaticTextChildren q cs := by
  rw [removeRedundantStaticTextChildren, removeRedundantStaticTextChildren, h]

theorem staticTextCombined_no_static {cs : List ANode}
    (h : ∀ c ∈ cs, (c.role == "StaticText") = false) :
    staticTextCombined cs = "" := by
  have haux : ∀ (l : List ANode) (acc : String),
      (∀ c ∈ l, (c.role == "StaticText") = false) →
      l.foldl
        (fun acc c =>
          if c.role == "StaticText" then
            match c.name with
            | some cn => if cn = "" then acc else acc ++ pyStrip (normaliseSpaces cn)
            | none => acc
          else acc) acc = acc := by
    intro l
    induction l with
    | nil => intro acc _; rfl
    | cons c rest ih =>
      intro acc hl
      rw [List.foldl_cons]
      rw [hl c (List.mem_cons_self c rest)]
      simp only [if_false, Bool.false_eq_true]
      exact ih acc (fun x hx => hl x (List.mem_cons_of_mem c hx))
  exact haux cs "" h

theorem removeRedundant_idem (p : ANode) (cs : List ANode) :
    removeRedundantStaticTextChildren p (removeRedundantStaticTextChildren p cs)
      = removeRedundantStaticTextChildren p cs := by
  rcases hn : p.name with _ | nm
  · rw [removeRedundantStaticTextChildren, hn,
      removeRedundantStaticTextChildren, hn]
  · by_cases he : nm = ""
    · rw [removeRedundantStaticTextChildren, hn,
        removeRedundantStaticTextChildren, hn]
      simp [he]
    · by_cases hc : staticTextCombined cs = pyStrip (normaliseSpaces nm)
      · have h1 : removeRedundantStaticTextChildren p cs
            = cs.filter (fun c => ¬ c.role == "StaticText") := by
          rw [removeRedundantStaticTextChildren, hn]
          simp [he, hc]
        rw [h1]
        have hno : ∀ c ∈ cs.filter (fun c => ¬ c.role == "StaticText"),
            (c.role == "StaticText") = false := by
          intro c hcmem
          have := List.of_mem_filter hcmem
          simpa using this
        have hcomb := staticTextCombined_no_static hno
        rw [removeRedundantStaticTextChildren, hn]
        simp only [he, if_false]
        by_cases hz : ("" : String) = pyStrip (normaliseSpaces nm)
        · rw [hcomb]
          simp only [hz, if_true]
          rw [List.filter_filter]
          simp
        · rw [hcomb]
          simp [hz]
      · have h1 : removeRedundantStaticTextChildren p cs = cs := by
          rw [removeRedundantStaticTextChildren, hn]
          simp [he, hc]
        rw [h1, removeRedundantStaticTextChildren, hn]
        simp [he, hc]

theorem cleanedRole_idem (m : List (String × String)) (r : String)
    (e : Option String) :
    cleanedRole m (cleanedRole m r e) e = cleanedRole m r e := by
  have hsel : isStructuralRole "select" = false := rfl
  have hselc : (("select" : String) == "combobox") = false := rfl
  rcases e with _ | e'
  · simp [cleanedRole]
  · cases hl : m.lookup e' with
    | none => simp [cleanedRole, hl]
    | some tag =>
      have hsb : (m.lookup e' == some "select") = (tag == "select") := by
        rw [hl]
        by_cases htag : tag = "select" <;> simp [htag]
      by_cases hsr : isStructuralRole r = true
      · by_cases htag : tag = "select"
        · subst htag
          simp [cleanedRole, hl, hsb, hsr, hsel, hselc]
        · have hb : (tag == "select") = false := beq_eq_false_iff_ne.2 htag
          simp [cleanedRole, hl, hsb, hsr, hb, ite_self]
      · have hsrf : isStructuralRole r = false := by
          cases hq : isStructuralRole r
          · rfl
          · exact absurd hq hsr
        by_cases hcb : r = "combobox"
        · by_cases htag : tag = "select"
          · subst htag hcb
            simp [cleanedRole, hl, hsb, hsrf, hsel, hselc]
          · have hb : (tag == "select") = false := beq_eq_false_iff_ne.2 htag
            simp [cleanedRole, hl, hsb, hsrf, hb]
        · have hb : (r == "combobox") = false := beq_eq_false_iff_ne.2 hcb
          simp [cleanedRole, hl, hsb, hsrf, hb]

/-- The cleanup pass is a fixpoint on its own output as long as the output
contains no structural wrapper with exactly one child; bounded induction on
the size of the original input tree. -/
theorem clean_fixpoint_bounded (m : List (String × String)) :
    ∀ n : Nat, ∀ t : ANode, sizeOf t ≤ n → ∀ u : ANode,
      cleanStructuralNodes m t = some u → u.noLone = true →
      cleanStructuralNodes m u = some u := by
  intro n
  induction n with
  | zero =>
    intro t ht
    exfalso
    obtain ⟨i, r, nm, e, children⟩ := t
    simp [ANode.mk.sizeOf_spec] at ht
  | succ n ih =>
    intro t ht u h hlone
    obtain ⟨i, r, nm, e, children⟩ := t
    by_cases hi : i < 0
    · unfold cleanStructuralNodes at h
      rw [if_pos hi] at h
      exact Option.noConfusion h
    cases children with
    | nil =>
      simp only [cleanStructuralNodes, if_neg hi] at h
      by_cases hs : isStructuralRole r = true
      · rw [if_pos hs] at h
        simp at h
      · rw [if_neg hs, Option.some.injEq] at h
        subst h
        simp [cleanStructuralNodes, hi, hs]
    | cons c0 cs =>
      simp only [cleanStructuralNodes, if_neg hi] at h
      have hchild : ∀ x ∈ cleanChildrenList m (c0 :: cs), x.noLone = true →
          cleanStructuralNodes m x = some x := by
        intro x hx hxl
        obtain ⟨c, hc, hcu⟩ := mem_cleanChildrenList hx
        have hsz : sizeOf c ≤ n := by
          have h1 := List.sizeOf_lt_of_mem hc
          have h2 : sizeOf (ANode.mk i r nm e (c0 :: cs))
              = 1 + sizeOf i + sizeOf r + sizeOf nm + sizeOf e
                + sizeOf (c0 :: cs) := by
            simp [ANode.mk.sizeOf_spec]
          rw [h2] at ht
          omega
        exact ih c hsz x hcu hxl
      by_cases h1 : (isStructuralRole r
          && (cleanChildrenList m (c0 :: cs)).length == 1) = true
      · rw [if_pos h1] at h
        have hu : u ∈ cleanChildrenList m (c0 :: cs) := by
          cases hcl : cleanChildrenList m (c0 :: cs) with
          | nil => rw [hcl] at h; simp at h
          | cons a l =>
            rw [hcl] at h
            simp only [List.head?_cons, Option.some.injEq] at h
            rw [h]
            exact List.mem_cons_self u l
        exact hchild u hu hlone
      by_cases h2 : (isStructuralRole r
          && (cleanChildrenList m (c0 :: cs)).length == 0) = true
      · rw [if_neg h1, if_pos h2] at h
        simp at h
      rw [if_neg h1, if_neg h2] at h
      by_cases hg : ((removeRedundantStaticTextChildren
            (.mk i (cleanedRole m r e) nm e (c0 :: cs))
            (cleanChildrenList m (c0 :: cs))).isEmpty
          && isStructuralRole (cleanedRole m r e)) = true
      · rw [if_pos hg] at h
        simp at h
      rw [if_neg hg, Option.some.injEq] at h
      subst h
      rw [ANode.noLone, Bool.and_eq_true] at hlone
      have hprune : ∀ x ∈ removeRedundantStaticTextChildren
          (.mk i (cleanedRole m r e) nm e (c0 :: cs))
          (cleanChildrenList m (c0 :: cs)),
          cleanStructuralNodes m x = some x := by
        intro x hx
        exact hchild x (removeRedundant_subset x hx)
          (noLoneList_mem hlone.2 hx)
      cases hpr : removeRedundantStaticTextChildren
          (.mk i (cleanedRole m r e) nm e (c0 :: cs))
          (cleanChildrenList m (c0 :: cs)) with
      | nil =>
        rw [hpr] at hg
        simp only [List.isEmpty_nil, Bool.true_and] at hg
        have hg2 : isStructuralRole (cleanedRole m r e) = false := by
          cases hq : isStructuralRole (cleanedRole m r e)
          · rfl
          · exact absurd hq hg
        simp [cleanStructuralNodes, hi, hg2]
      | cons p0 ps =>
        rw [hpr] at hprune hlone
        have hcc2 : cleanChildrenList m (p0 :: ps) = p0 :: ps :=
          cleanChildrenList_id hprune
        have hlen1 : ¬ (isStructuralRole (cleanedRole m r e)
            && ((p0 :: ps).length == 1)) = true := by
          intro hq
          have hb := hlone.1
          rw [hq] at hb
          simp at hb
        have hpr2 : removeRedundantStaticTextChildren
            (.mk i (cleanedRole m r e) nm e (c0 :: cs)) (p0 :: ps)
            = p0 :: ps := by
          rw [← hpr, removeRedundant_idem]
        simp only [cleanStructuralNodes, if_neg hi, hcc2]
        rw [if_neg hlen1]
        rw [if_neg (by simp)]
        rw [cleanedRole_idem]
        have hname : (ANode.mk i (cleanedRole m r e) nm e (p0 :: ps)).name
            = (ANode.mk i (cleanedRole m r e) nm e (c0 :: cs)).name := rfl
        rw [removeRedundant_name_only hname (p0 :: ps), hpr2]
        rw [if_neg (by simp)]

/-- **C2 (amended).** The cleanup pass is a fixpoint on its own output except
when redundant-StaticText removal leaves a `generic`/`none` wrapper with
exactly one remaining child (which one further pass collapses): for every
input tree `t`, if the cleaned tree `u` contains no structural node with
exactly one child, then cleaning `u` again returns `u` unchanged. -/
theorem c2_clean_fixpoint_amended (m : List (String × String)) (t u : ANode)
    (h : cleanStructuralNodes m t = some u) (hlone : u.noLone = true) :
    cleanStructuralNodes m u = some u :=
  clean_fixpoint_bounded m (sizeOf t) t le_rfl u h hlone

/-- A small tree that cleanup leaves unchanged: a generic wrapper named "w"
whose StaticText child text "x" does not match the parent name. -/
def exStable : ANode :=
  .mk 1 "generic" (some "w") none
    [.mk 2 "StaticText" (some "x") none [], .mk 3 "button" (some "b") none []]

/-- Closed witness for the amended C2 on a small already-clean tree. -/
theorem c2_clean_fixpoint_amended_witness :
    (cleanStructuralNodes [] exStable = some exStable
      ∧ ANode.noLone exStable = true)
    ∧ cleanStructuralNodes [] exStable = some exStable :=
  ⟨⟨by simp [cleanStructuralNodes, cleanChildrenList, cleanedRole,
      removeRedundantStaticTextChildren, staticTextCombined, isStructuralRole,
      exStable, pyStrip, normaliseSpaces, normSpacesAux, isPySpace,
      ANode.role, ANode.name],
    by simp [ANode.noLone, ANode.noLoneList, isStructuralRole, exStable]⟩,
    c2_clean_fixpoint_amended [] exStable exStable
      (by simp [cleanStructuralNodes, cleanChildrenList, cleanedRole,
        removeRedundantStaticTextChildren, staticTextCombined, isStructuralRole,
        exStable, pyStrip, normaliseSpaces, normSpacesAux, isPySpace,
        ANode.role, ANode.name])
      (by simp [ANode.noLone, ANode.noLoneList, isStructuralRole, exStable])⟩

/-! ## HierarchyBuilder pass 1 (`a11y_utils.py`, `build_hierarchical_tree`)

`AXFlatNode` models one element of the flat node list after `decorate_roles`
(role/name/description/value already projected to plain values); `nodeId` is
the CDP node id after Python's `int(...)` conversion. -/

/-- One entry of an AX node's `properties` array: the property name and its
nested `value.value` when that is a string. -/
structure AXProperty where
  name : String
  value : Option String
  deriving Repr, DecidableEq

/-- A flat accessibility node as consumed by `build_hierarchical_tree`. -/
structure AXFlatNode where
  nodeId : Int
  role : String
  name : Option String
  description : Option String
  value : Option String
  backendDOMNodeId : Option Nat
  parentId : Option Int
  childIds : List Int
  properties : List AXProperty
  deriving Repr, DecidableEq

/-- `extract_url_from_ax_node`: the trimmed string value of the first
property named `url`, if any. -/
def extractUrlFromAxNode (n : AXFlatNode) : Option String :=
  match n.properties.find? (fun p => p.name == "url") with
  | some p =>
    match p.value with
    | some s => some (pyStrip s)
    | none => none
  | none => none

/-- `is_interactive`: every role except `none`, `generic`, `InlineTextBox`. -/
def isInteractive (n : AXFlatNode) : Bool :=
  !(n.role == "none" || n.role == "generic" || n.role == "InlineTextBox")

/-- The pass-1 keep condition: non-empty trimmed name, or children, or an
interactive role. -/
def keepNode (n : AXFlatNode) : Bool :=
  pyStrip (n.name.getD "") != "" || decide (0 < n.childIds.length)
    || isInteractive n

/-- Whether pass 1 registers the node at all: non-negative id and kept. -/
def keptNode (n : AXFlatNode) : Bool :=
  !(decide (n.nodeId < 0)) && keepNode n

/-- Python `str.split('-')` on the character list. -/
def splitDash (cs : List Char) : List (List Char) := splitChar '-' cs

/-- Python `int(str)` restricted to the digit strings that occur in
`EncodedId` parts; anything else raises `ValueError` (modelled as `none`). -/
def parseDigits (cs : List Char) : Option Nat :=
  if cs.isEmpty then none
  else if cs.all (fun c => c.isDigit) then
    some (cs.foldl (fun acc c => acc * 10 + (c.toNat - 48)) 0)
  else none

/-- The `backend_to_ids` grouping of `build_hierarchical_tree`, queried at one
backend id: all map keys of shape `"<a>-<b>"` whose second part parses to the
given backend id, in key order. -/
def backendMatches (m : List (String × String)) (bid : Nat) : List String :=
  m.foldl
    (fun acc p =>
      match splitDash p.1.data with
      | [_, b] =>
        match parseDigits b with
        | some k => if k = bid then acc ++ [p.1] else acc
        | none => acc
      | _ => acc) []

/-- The mutable node dictionary stored in `node_map` by pass 1 (children are
wired later, in pass 2). -/
structure Pass1Entry where
  encodedId : Option String
  role : String
  nodeId : Int
  name : Option String
  description : Option String
  value : Option String
  backendDOMNodeId : Option Nat
  deriving Repr, DecidableEq

/-- The entry pass 1 builds for a kept node: the EncodedId resolves only when
the backend id has exactly one match, and falsy name/description/value keys
are omitted. -/
def mkEntry (m : List (String × String)) (n : AXFlatNode) : Pass1Entry :=
  let enc :=
    match n.backendDOMNodeId with
    | some bid =>
      match backendMatches m bid with
      | [e] => some e
      | _ => none
    | none => none
  { encodedId := enc
    role := n.role
    nodeId := n.nodeId
    name := match n.name with
      | some s => if s = "" then none else some s
      | none => none
    description := match n.description with
      | some s => if s = "" then none else some s
      | none => none
    value := match n.value with
      | some s => if s = "" then none else some s
      | none => none
    backendDOMNodeId := n.backendDOMNodeId }

/-- Pass 1 of `build_hierarchical_tree`: returns `node_map` (later writes
first) and `id_to_url`. -/
def pass1 (m : List (String × String)) (nodes : List AXFlatNode) :
    List (Int × Pass1Entry) × List (String × String) :=
  nodes.foldl
    (fun acc n =>
      if n.nodeId < 0 then acc
      else
        let url := extractUrlFromAxNode n
        if keepNode n then
          let entry := mkEntry m n
          let urls :=
            match url, entry.encodedId with
            | some u, some enc => if u = "" then acc.2 else (enc, u) :: acc.2
            | _, _ => acc.2
          ((n.nodeId, entry) :: acc.1, urls)
        else acc)
    ([], [])

theorem pass1_fold_characterization (m : List (String × String)) :
    ∀ (nodes : List AXFlatNode) (acc : List (Int × Pass1Entry) × List (String × String)),
      (nodes.foldl
        (fun acc n =>
          if n.nodeId < 0 then acc
          else
            let url := extractUrlFromAxNode n
            if keepNode n then
              let entry := mkEntry m n
              let urls :=
                match url, entry.encodedId with
                | some u, some enc => if u = "" then acc.2 else (enc, u) :: acc.2
                | _, _ => acc.2
              ((n.nodeId, entry) :: acc.1, urls)
            else acc) acc).1
      = ((nodes.filter keptNode).map (fun n => (n.nodeId, mkEntry m n))).reverse
        ++ acc.1 := by
  intro nodes
  induction nodes with
  | nil => intro acc; simp
  | cons n rest ih =>
    intro acc
    rw [List.foldl_cons, List.filter_cons]
    by_cases hneg : n.nodeId < 0
    · have hk : keptNode n = false := by
        simp [keptNode, hneg]
      rw [if_pos hneg, hk]
      simp only [Bool.false_eq_true, if_false]
      exact ih acc
    · by_cases hkeep : keepNode n = true
      · have hk : keptNode n = true := by
          simp [keptNode, hneg, hkeep]
        rw [if_neg hneg, hk, if_pos hkeep]
        rw [ih]
        simp
      · have hk : keptNode n = false := by
          simp [keptNode, hkeep]
        rw [if_neg hneg, hk]
        simp only [Bool.false_eq_true, if_false]
        have hknf : keepNode n = false := by
          cases hq : keepNode n
          · rfl
          · exact absurd hq hkeep
        rw [hknf]
        simp only [Bool.false_eq_true, if_false]
        exact ih acc

/-- `pass1`'s node map is exactly the kept nodes, mapped to entries. -/
theorem pass1_eq_filter_map (m : List (String × String))
    (nodes : List AXFlatNode) :
    (pass1 m nodes).1
      = ((nodes.filter keptNode).map (fun n => (n.nodeId, mkEntry m n))).reverse := by
  have h := pass1_fold_characterization m nodes ([], [])
  rw [pass1]
  rw [h]
  simp

theorem keptNode_iff (n : AXFlatNode) :
    keptNode n = true
      ↔ (0 ≤ n.nodeId
        ∧ (pyStrip (n.name.getD "") ≠ "" ∨ n.childIds ≠ []
           ∨ isInteractive n = true)) := by
  rw [keptNode, keepNode]
  simp only [Bool.and_eq_true, Bool.or_eq_true, Bool.not_eq_true',
    decide_eq_false_iff_not, not_lt, bne_iff_ne, ne_eq, decide_eq_true_eq,
    List.length_pos]
  tauto

theorem lookupP1_isSome_iff {l : List (Int × Pass1Entry)} {k : Int} :
    (l.lookup k).isSome = true ↔ k ∈ l.map Prod.fst := by
  induction l with
  | nil => simp
  | cons p rest ih =>
    rw [List.lookup]
    by_cases hk : k == p.1
    · simp only [hk, cond_true, Option.isSome_some, true_iff]
      have : k = p.1 := by simpa using hk
      simp [this]
    · simp only [hk, cond_false, List.map_cons, List.mem_cons]
      rw [ih]
      constructor
      · exact Or.inr
      · rintro (h | h)
        · exact absurd (by simpa using h) (by simpa using hk)
        · exact h

/-- **C7.** In pass 1 of `build_hierarchical_tree`, a node with non-negative
node id is kept iff it has a non-empty trimmed name, a non-empty `childIds`
list, or a role other than `none`/`generic`/`InlineTextBox`; negative
(pseudo) node ids are always dropped; consequently every retained entry stems
from a node with a non-empty name, at least one child, or an interactive
role.  (The membership equivalence assumes distinct node ids, which CDP
guarantees per snapshot.) -/
theorem c7_pass1_keep_iff (m : List (String × String))
    (nodes : List AXFlatNode)
    (hnd : (nodes.map AXFlatNode.nodeId).Nodup) :
    ((pass1 m nodes).1
      = ((nodes.filter keptNode).map (fun n => (n.nodeId, mkEntry m n))).reverse)
    ∧ (∀ p ∈ (pass1 m nodes).1, ∃ n ∈ nodes,
        0 ≤ n.nodeId
        ∧ (pyStrip (n.name.getD "") ≠ "" ∨ n.childIds ≠ []
           ∨ isInteractive n = true)
        ∧ p = (n.nodeId, mkEntry m n))
    ∧ (∀ n ∈ nodes,
        ((pass1 m nodes).1.lookup n.nodeId).isSome = true
          ↔ (0 ≤ n.nodeId
            ∧ (pyStrip (n.name.getD "") ≠ "" ∨ n.childIds ≠ []
               ∨ isInteractive n = true))) := by
  refine ⟨pass1_eq_filter_map m nodes, ?_, ?_⟩
  · intro p hp
    rw [pass1_eq_filter_map, List.mem_reverse] at hp
    obtain ⟨n, hn, rfl⟩ := List.mem_map.1 hp
    have hmem := List.mem_of_mem_filter hn
    have hcond := (keptNode_iff n).1 (List.of_mem_filter hn)
    exact ⟨n, hmem, hcond.1, hcond.2, rfl⟩
  · intro n hn
    rw [pass1_eq_filter_map, lookupP1_isSome_iff]
    constructor
    · intro hmem
      simp only [List.map_reverse, List.mem_reverse] at hmem
      rw [List.map_map] at hmem
      obtain ⟨n2, hn2, hn2eq⟩ := List.mem_map.1 hmem
      have hn2mem := List.mem_of_mem_filter hn2
      have hn2cond := (keptNode_iff n2).1 (List.of_mem_filter hn2)
      have heq : n2 = n :=
        List.inj_on_of_nodup_map hnd hn2mem hn
          (by simpa [AXFlatNode.nodeId] using hn2eq)
      rw [← heq]
      exact ⟨hn2cond.1, hn2cond.2⟩
    · intro hcond
      have hk : keptNode n = true := (keptNode_iff n).2 hcond
      have hnf : n ∈ nodes.filter keptNode := List.mem_filter.2 ⟨hn, hk⟩
      simp only [List.map_reverse, List.mem_reverse, List.map_map]
      exact List.mem_map.2 ⟨n, hnf, rfl⟩

/-- The three pass-1 sample nodes of the C7 witness. -/
def c7n1 : AXFlatNode :=
  { nodeId := 1, role := "button", name := some "Go", description := none,
    value := none, backendDOMNodeId := some 7, parentId := none,
    childIds := [], properties := [] }

/-- A nameless structural node (whitespace name, no children). -/
def c7n2 : AXFlatNode :=
  { nodeId := 2, role := "generic", name := some " ", description := none,
    value := none, backendDOMNodeId := none, parentId := some 1,
    childIds := [], properties := [] }

/-- A negative pseudo-node. -/
def c7n3 : AXFlatNode :=
  { nodeId := -3, role := "button", name := some "Hidden",
    description := none, value := none, backendDOMNodeId := none,
    parentId := none, childIds := [], properties := [] }

/-- The C7 witness input list. -/
def c7nodes : List AXFlatNode := [c7n1, c7n2, c7n3]

/-- Closed witness for C7: a named button is kept, a whitespace-named generic
node is dropped, and a negative pseudo-node is dropped. -/
theorem c7_pass1_keep_iff_witness :
    (c7nodes.map AXFlatNode.nodeId).Nodup
    ∧ (((pass1 [] c7nodes).1.lookup 1).isSome = true
      ∧ ((pass1 [] c7nodes).1.lookup 2).isSome = false
      ∧ ((pass1 [] c7nodes).1.lookup (-3)).isSome = false) := by
  have h := c7_pass1_keep_iff [] c7nodes (by decide)
  refine ⟨by decide, ?_, ?_, ?_⟩
  · exact (h.2.2 c7n1 (by decide)).2 (by decide)
  · cases hq : ((pass1 [] c7nodes).1.lookup 2).isSome with
    | false => rfl
    | true => exact absurd ((h.2.2 c7n2 (by decide)).1 hq) (by decide)
  · cases hq : ((pass1 [] c7nodes).1.lookup (-3)).isSome with
    | false => rfl
    | true => exact absurd ((h.2.2 c7n3 (by decide)).1 hq) (by decide)

/-! ## FrameTreeMerger subtree injection (`a11y_utils.py`, `inject_subtrees`)

The stack frames of the injection walk hold the remaining lines of one
outline plus the indent to prepend; `id_to_tree` is the EncodedId ↦ subtree
outline dict. -/

/-- One injection stack frame: remaining lines and the indent to prepend. -/
structure InjFrame where
  lines : List String
  indent : String

/-- The label grabbed by `^\s*\[([^\]]+)\]`: after the bracket, one or more
non-`]` characters up to the closing bracket. -/
def grabLabel : List Char → List Char → Option String
  | [], _ => none
  | c :: rest, acc =>
    if c = ']' then (if acc.isEmpty then none else some ⟨acc.reverse⟩)
    else grabLabel rest (c :: acc)

/-- `re.match(r'^\s*\[([^\]]+)\]', raw)`: the first bracketed label of a
line, after leading whitespace. -/
def parseLabel (cs : List Char) : Option String :=
  match cs.dropWhile isPySpace with
  | '[' :: more => grabLabel more []
  | _ => none

/-- `re.match(ID_PATTERN, label)` with `ID_PATTERN = r"^\d+-\d+$"`, returning
the backend-id part. -/
def idPatternBackend (label : String) : Option Nat :=
  match splitDash label.data with
  | [a, b] =>
    if !a.isEmpty && a.all Char.isDigit && !b.isEmpty && b.all Char.isDigit
    then parseDigits b
    else none
  | _ => none

/-- `re.match(r'^\d+$', label)`: a purely numeric label. -/
def numericLabel (label : String) : Option Nat :=
  if !label.data.isEmpty && label.data.all Char.isDigit
  then parseDigits label.data
  else none

/-- `unique_by_backend`: the only key of `id_to_tree` whose backend part
equals the given backend id, or `none` on zero hits or a collision. -/
def uniqueByBackend (idToTree : List (String × String)) (backendId : Nat) :
    Option String :=
  match backendMatches idToTree backendId with
  | [e] => some e
  | _ => none

/-- The label-resolution step of the injection loop: an exact `EncodedId`
match in `id_to_tree`, or the unique fallback by backend id. -/
def resolveInjection (idToTree : List (String × String)) (label : String) :
    Option (String × String) :=
  match idToTree.lookup label with
  | some child => some (label, child)
  | none =>
    let backendId :=
      match idPatternBackend label with
      | some b => some b
      | none => numericLabel label
    match backendId with
    | some b =>
      match uniqueByBackend idToTree b with
      | some alt =>
        match idToTree.lookup alt with
        | some child => some (alt, child)
        | none => none
      | none => none
    | none => none

theorem resolveInjection_lookup {idToTree : List (String × String)}
    {label : String} {p : String × String}
    (h : resolveInjection idToTree label = some p) :
    idToTree.lookup p.1 = some p.2 := by
  obtain ⟨enc, child⟩ := p
  simp only
  rw [resolveInjection] at h
  cases h1 : idToTree.lookup label with
  | some c =>
    simp only [h1, Option.some.injEq, Prod.mk.injEq] at h
    rw [← h.1, h1, h.2]
  | none =>
    simp only [h1] at h
    rcases h2 : (match idPatternBackend label with
      | some b => some b
      | none => numericLabel label) with _ | b
    · simp only [h2] at h
      exact Option.noConfusion h
    · simp only [h2] at h
      cases h3 : uniqueByBackend idToTree b with
      | none =>
        simp only [h3] at h
        exact Option.noConfusion h
      | some alt =>
        simp only [h3] at h
        cases h4 : idToTree.lookup alt with
        | none =>
          simp only [h4] at h
          exact Option.noConfusion h
        | some c =>
          simp only [h4, Option.some.injEq, Prod.mk.injEq] at h
          rw [← h.1, h4, h.2]

/-- Number of `id_to_tree` entries whose key has not been visited yet (first
component of the termination measure). -/
def unvisitedCount (idToTree : List (String × String))
    (visited : List String) : Nat :=
  (idToTree.filter (fun p => !(decide (p.1 ∈ visited)))).length

/-- Total number of lines left on the stack. -/
def totalLines (stack : List InjFrame) : Nat :=
  (stack.map (fun f => f.lines.length)).sum

theorem unvisited_lt {idToTree : List (String × String)}
    {visited : List String} {enc : String} {child : String}
    (hl : idToTree.lookup enc = some child) (hv : enc ∉ visited) :
    unvisitedCount idToTree (enc :: visited) < unvisitedCount idToTree visited := by
  induction idToTree with
  | nil => simp at hl
  | cons p rest ih =>
    rw [List.lookup] at hl
    rw [unvisitedCount, unvisitedCount, List.filter_cons, List.filter_cons]
    by_cases hp : enc = p.1
    · have hb : (p.1 ∈ (enc :: visited)) := by
        rw [← hp]
        exact List.mem_cons_self _ _
      have hnb : p.1 ∉ visited := by rw [← hp]; exact hv
      have c1 : ¬ ((!(decide (p.1 ∈ enc :: visited))) = true) := by simp [hb]
      have c2 : (!(decide (p.1 ∈ visited))) = true := by simp [hnb]
      rw [if_neg c1, if_pos c2, List.length_cons]
      have hmono : (rest.filter (fun p => !(decide (p.1 ∈ enc :: visited)))).length
          ≤ (rest.filter (fun p => !(decide (p.1 ∈ visited)))).length := by
        refine List.Sublist.length_le (List.monotone_filter_right rest ?_)
        intro a ha
        simp only [Bool.not_eq_true', decide_eq_false_iff_not] at ha ⊢
        intro hmem
        exact ha (List.mem_cons_of_mem _ hmem)
      omega
    · have hb : (enc == p.1) = false := beq_eq_false_iff_ne.2 hp
      rw [hb] at hl
      simp only [cond_false] at hl
      have heq : (decide (p.1 ∈ enc :: visited)) = (decide (p.1 ∈ visited)) := by
        by_cases hq : p.1 ∈ visited
        · simp [hq]
        · have : p.1 ∉ enc :: visited := by
            intro hc
            rcases List.mem_cons.1 hc with hc1 | hc2
            · exact hp hc1.symm
            · exact hq hc2
          simp [hq, this]
      rw [heq]
      have hrec := ih hl
      rw [unvisitedCount, unvisitedCount] at hrec
      split
      · simp only [List.length_cons]
        omega
      · omega

/-- The depth-first injection walk of `inject_subtrees`: emits each line with
its indent, and splices a resolved, non-empty, unvisited subtree one indent
level deeper directly beneath the matching line.  Returns the output lines
and the spliced EncodedIds in splice order. -/
def injectGo (idToTree : List (String × String)) :
    List String → List InjFrame → List String × List String
  | _, [] => ([], [])
  | visited, ⟨[], _⟩ :: rest => injectGo idToTree visited rest
  | visited, ⟨raw :: ls, ind⟩ :: rest =>
    let line := ind ++ raw
    match parseLabel raw.data with
    | none =>
      let p := injectGo idToTree visited (⟨ls, ind⟩ :: rest)
      (line :: p.1, p.2)
    | some label =>
      match hres : resolveInjection idToTree label with
      | none =>
        let p := injectGo idToTree visited (⟨ls, ind⟩ :: rest)
        (line :: p.1, p.2)
      | some encChild =>
        if encChild.2 = "" then
          let p := injectGo idToTree visited (⟨ls, ind⟩ :: rest)
          (line :: p.1, p.2)
        else if henc : encChild.1 ∈ visited then
          let p := injectGo idToTree visited (⟨ls, ind⟩ :: rest)
          (line :: p.1, p.2)
        else
          let indentStr : String := ⟨(ind ++ raw).data.takeWhile isPySpace⟩
          let p := injectGo idToTree (encChild.1 :: visited)
            (⟨(splitChar '\n' encChild.2.data).map String.mk,
              indentStr ++ "  "⟩ :: ⟨ls, ind⟩ :: rest)
          (line :: p.1, encChild.1 :: p.2)
termination_by visited stack =>
  (unvisitedCount idToTree visited, totalLines stack + stack.length)
decreasing_by
  all_goals simp_wf
  all_goals
    first
    | exact Prod.Lex.left _ _
        (unvisited_lt (resolveInjection_lookup hres) henc)
    | · apply Prod.Lex.right
        simp only [totalLines, List.map_cons, List.sum_cons, List.length_cons]
        omega

/-- `inject_subtrees(tree, id_to_tree)`. -/
def injectSubtrees (tree : String) (idToTree : List (String × String)) :
    String :=
  let p := injectGo idToTree []
    [⟨(splitChar '\n' tree.data).map String.mk, ""⟩]
  String.intercalate "\n" p.1

theorem empty_append_str (s : String) : "" ++ s = s := by
  obtain ⟨d⟩ := s
  rfl

theorem injectGo_cons_nolabel {idToTree : List (String × String)}
    {visited : List String} {raw : String} {ls : List String} {ind : String}
    {rest : List InjFrame} (hlab : parseLabel raw.data = none) :
    injectGo idToTree visited (⟨raw :: ls, ind⟩ :: rest)
      = ((ind ++ raw) :: (injectGo idToTree visited (⟨ls, ind⟩ :: rest)).1,
        (injectGo idToTree visited (⟨ls, ind⟩ :: rest)).2) := by
  rw [injectGo, hlab]

theorem injectGo_cons_nores {idToTree : List (String × String)}
    {visited : List String} {raw : String} {ls : List String} {ind : String}
    {rest : List InjFrame} {lab : String}
    (hlab : parseLabel raw.data = some lab)
    (hres : resolveInjection idToTree lab = none) :
    injectGo idToTree visited (⟨raw :: ls, ind⟩ :: rest)
      = ((ind ++ raw) :: (injectGo idToTree visited (⟨ls, ind⟩ :: rest)).1,
        (injectGo idToTree visited (⟨ls, ind⟩ :: rest)).2) := by
  rw [injectGo, hlab]
  split
  · next heq => exact absurd heq (by simp)
  · next lab2 heq =>
    rw [Option.some.injEq] at heq
    subst heq
    split
    · rfl
    · next encChild2 heq2 =>
      rw [hres] at heq2
      exact Option.noConfusion heq2

theorem injectGo_cons_skip {idToTree : List (String × String)}
    {visited : List String} {raw : String} {ls : List String} {ind : String}
    {rest : List InjFrame} {lab : String} {encChild : String × String}
    (hlab : parseLabel raw.data = some lab)
    (hres : resolveInjection idToTree lab = some encChild)
    (hskip : encChild.2 = "" ∨ encChild.1 ∈ visited) :
    injectGo idToTree visited (⟨raw :: ls, ind⟩ :: rest)
      = ((ind ++ raw) :: (injectGo idToTree visited (⟨ls, ind⟩ :: rest)).1,
        (injectGo idToTree visited (⟨ls, ind⟩ :: rest)).2) := by
  rw [injectGo, hlab]
  split
  · next heq => exact absurd heq (by simp)
  · next lab2 heq =>
    rw [Option.some.injEq] at heq
    subst heq
    split
    · next heq2 =>
      rw [hres] at heq2
    · next encChild2 heq2 =>
      rw [hres, Option.some.injEq] at heq2
      subst heq2
      rcases hskip with hemp | hmem
      · rw [if_pos hemp]
      · by_cases hemp : encChild.2 = ""
        · rw [if_pos hemp]
        · rw [if_neg hemp, dif_pos hmem]

theorem injectGo_cons_push {idToTree : List (String × String)}
    {visited : List String} {raw : String} {ls : List String} {ind : String}
    {rest : List InjFrame} {lab : String} {encChild : String × String}
    (hlab : parseLabel raw.data = some lab)
    (hres : resolveInjection idToTree lab = some encChild)
    (hemp : ¬ encChild.2 = "") (hmem : encChild.1 ∉ visited) :
    injectGo idToTree visited (⟨raw :: ls, ind⟩ :: rest)
      = ((ind ++ raw) ::
          (injectGo idToTree (encChild.1 :: visited)
            (⟨(splitChar '\n' encChild.2.data).map String.mk,
              (⟨(ind ++ raw).data.takeWhile isPySpace⟩ : String) ++ "  "⟩
              :: ⟨ls, ind⟩ :: rest)).1,
        encChild.1 ::
          (injectGo idToTree (encChild.1 :: visited)
            (⟨(splitChar '\n' encChild.2.data).map String.mk,
              (⟨(ind ++ raw).data.takeWhile isPySpace⟩ : String) ++ "  "⟩
              :: ⟨ls, ind⟩ :: rest)).2) := by
  rw [injectGo, hlab]
  split
  · next heq => exact absurd heq (by simp)
  · next lab2 heq =>
    rw [Option.some.injEq] at heq
    subst heq
    split
    · next heq2 =>
      rw [hres] at heq2
      exact absurd heq2 (by simp)
    · next encChild2 heq2 =>
      rw [hres, Option.some.injEq] at heq2
      subst heq2
      rw [if_neg hemp, dif_neg hmem]

/-- Every frame on the stack contributes its remaining lines, with its
indent, as a subsequence of the walk's output, in order. -/
theorem injectGo_frame_sublist (idToTree : List (String × String))
    (visited : List String) (stack : List InjFrame) :
    ∀ (pre : List InjFrame) (f : InjFrame) (rest : List InjFrame),
      stack = pre ++ f :: rest →
      (f.lines.map (fun l => f.indent ++ l)).Sublist
        (injectGo idToTree visited stack).1 := by
  induction visited, stack using injectGo.induct idToTree with
  | case1 visited =>
    intro pre f rest heq
    cases pre <;> simp at heq
  | case2 visited ind rest ih =>
    intro pre f rest2 heq
    rw [injectGo]
    cases pre with
    | nil =>
      simp only [List.nil_append, List.cons.injEq] at heq
      rw [← heq.1]
      simp
    | cons t pre2 =>
      simp only [List.cons_append, List.cons.injEq] at heq
      exact ih pre2 f rest2 heq.2
  | case3 visited raw ls ind rest hlab ih =>
    intro pre f rest2 heq
    rw [injectGo_cons_nolabel hlab]
    cases pre with
    | nil =>
      simp only [List.nil_append, List.cons.injEq] at heq
      rw [← heq.1]
      simp only [List.map_cons]
      exact List.Sublist.cons₂ _ (ih [] ⟨ls, ind⟩ rest rfl)
    | cons t pre2 =>
      simp only [List.cons_append, List.cons.injEq] at heq
      exact List.Sublist.cons _ (ih (⟨ls, ind⟩ :: pre2) f rest2 (by simp [heq.2]))
  | case4 visited raw ls ind rest lab hlab hres ih =>
    intro pre f rest2 heq
    rw [injectGo_cons_nores hlab hres]
    cases pre with
    | nil =>
      simp only [List.nil_append, List.cons.injEq] at heq
      rw [← heq.1]
      simp only [List.map_cons]
      exact List.Sublist.cons₂ _ (ih [] ⟨ls, ind⟩ rest rfl)
    | cons t pre2 =>
      simp only [List.cons_append, List.cons.injEq] at heq
      exact List.Sublist.cons _ (ih (⟨ls, ind⟩ :: pre2) f rest2 (by simp [heq.2]))
  | case5 visited raw ls ind rest lab hlab encChild hres hemp ih =>
    intro pre f rest2 heq
    rw [injectGo_cons_skip hlab hres (Or.inl hemp)]
    cases pre with
    | nil =>
      simp only [List.nil_append, List.cons.injEq] at heq
      rw [← heq.1]
      simp only [List.map_cons]
      exact List.Sublist.cons₂ _ (ih [] ⟨ls, ind⟩ rest rfl)
    | cons t pre2 =>
      simp only [List.cons_append, List.cons.injEq] at heq
      exact List.Sublist.cons _ (ih (⟨ls, ind⟩ :: pre2) f rest2 (by simp [heq.2]))
  | case6 visited raw ls ind rest lab hlab encChild hres hemp hmem ih =>
    intro pre f rest2 heq
    rw [injectGo_cons_skip hlab hres (Or.inr hmem)]
    cases pre with
    | nil =>
      simp only [List.nil_append, List.cons.injEq] at heq
      rw [← heq.1]
      simp only [List.map_cons]
      exact List.Sublist.cons₂ _ (ih [] ⟨ls, ind⟩ rest rfl)
    | cons t pre2 =>
      simp only [List.cons_append, List.cons.injEq] at heq
      exact List.Sublist.cons _ (ih (⟨ls, ind⟩ :: pre2) f rest2 (by simp [heq.2]))
  | case7 visited raw ls ind rest lab hlab encChild hres hemp hmem indentStr ih =>
    intro pre f rest2 heq
    rw [injectGo_cons_push hlab hres hemp hmem]
    cases pre with
    | nil =>
      simp only [List.nil_append, List.cons.injEq] at heq
      rw [← heq.1]
      simp only [List.map_cons]
      refine List.Sublist.cons₂ _ ?_
      exact ih [⟨(splitChar '\n' encChild.2.data).map String.mk,
        indentStr ++ "  "⟩] ⟨ls, ind⟩ rest rfl
    | cons t pre2 =>
      simp only [List.cons_append, List.cons.injEq] at heq
      refine List.Sublist.cons _ ?_
      exact ih (⟨(splitChar '\n' encChild.2.data).map String.mk,
        indentStr ++ "  "⟩ :: ⟨ls, ind⟩ :: pre2) f rest2 (by rw [heq.2]; rfl)

/-- The spliced EncodedIds are pairwise distinct and none was visited when
the walk started. -/
theorem injectGo_spliced_nodup (idToTree : List (String × String))
    (visited : List String) (stack : List InjFrame) :
    (injectGo idToTree visited stack).2.Nodup
    ∧ ∀ e ∈ (injectGo idToTree visited stack).2, e ∉ visited := by
  induction visited, stack using injectGo.induct idToTree with
  | case1 visited =>
    rw [injectGo]
    simp
  | case2 visited ind rest ih =>
    rw [injectGo]
    exact ih
  | case3 visited raw ls ind rest hlab ih =>
    rw [injectGo_cons_nolabel hlab]
    exact ih
  | case4 visited raw ls ind rest lab hlab hres ih =>
    rw [injectGo_cons_nores hlab hres]
    exact ih
  | case5 visited raw ls ind rest lab hlab encChild hres hemp ih =>
    rw [injectGo_cons_skip hlab hres (Or.inl hemp)]
    exact ih
  | case6 visited raw ls ind rest lab hlab encChild hres hemp hmem ih =>
    rw [injectGo_cons_skip hlab hres (Or.inr hmem)]
    exact ih
  | case7 visited raw ls ind rest lab hlab encChild hres hemp hmem indentStr ih =>
    rw [injectGo_cons_push hlab hres hemp hmem]
    simp only [List.nodup_cons, List.mem_cons]
    refine ⟨⟨?_, ih.1⟩, ?_⟩
    · intro hc
      exact (ih.2 _ hc) (List.mem_cons_self _ _)
    · rintro e (rfl | he)
      · exact hmem
      · intro hv
        exact (ih.2 e he) (List.mem_cons_of_mem _ hv)

/-- **C9.** For every main-frame outline and id-to-subtree map, the output of
`inject_subtrees` contains every line of the main outline in the main
outline's original order (a subsequence of the output lines), and each
EncodedId's subtree is spliced at most once (the spliced ids are pairwise
distinct), so the injection walk terminates — `injectGo` is total — even when
a subtree outline contains a label referring to an already-injected
subtree. -/
theorem c9_inject_subtrees (tree : String)
    (idToTree : List (String × String)) :
    ((splitChar '\n' tree.data).map String.mk).Sublist
      (injectGo idToTree []
        [⟨(splitChar '\n' tree.data).map String.mk, ""⟩]).1
    ∧ (injectGo idToTree []
        [⟨(splitChar '\n' tree.data).map String.mk, ""⟩]).2.Nodup
    ∧ injectSubtrees tree idToTree
        = String.intercalate "\n"
          (injectGo idToTree []
            [⟨(splitChar '\n' tree.data).map String.mk, ""⟩]).1 := by
  refine ⟨?_, (injectGo_spliced_nodup idToTree [] _).1, rfl⟩
  have h := injectGo_frame_sublist idToTree []
    [⟨(splitChar '\n' tree.data).map String.mk, ""⟩]
    [] ⟨(splitChar '\n' tree.data).map String.mk, ""⟩ [] rfl
  have hmap : ((splitChar '\n' tree.data).map String.mk).map
      (fun l => "" ++ l) = (splitChar '\n' tree.data).map String.mk := by
    rw [List.map_congr_left (fun a _ => empty_append_str a)]
    exact List.map_id _
  rw [hmap] at h
  exact h

/-! ## FrameTreeMerger (`a11y_utils.py`, `get_accessibility_tree_with_frames`,
default path `root_xpath = None`)

Frames form a tree; per-frame protocol work inside the loop's `try` block
(`get_accessibility_tree`, `get_frame_root_backend_node_id`,
`get_frame_root_xpath`, `get_cdp_frame_id`) is modelled as one oracle
returning either the fetched data or the raised error.  A snapshot carries,
instead of the Playwright parent-frame pointer, the materialised list of
`seg` values `full_prefix` would fold over: the ancestor frames' iframe
hosting paths, nearest ancestor first (`''` for an ancestor whose fetch
failed, matching `seg.get(f, '')`). -/

/-- Python `str.rstrip()`. -/
def pyRstrip (s : String) : String :=
  ⟨(s.data.reverse.dropWhile isPySpace).reverse⟩

/-- Python `str.rstrip('/')`. -/
def pyRstripSlash (s : String) : String :=
  ⟨(s.data.reverse.dropWhile (fun c => c = '/')).reverse⟩

/-- Python `str.lstrip('/')`. -/
def pyLstripSlash (s : String) : String :=
  ⟨s.data.dropWhile (fun c => c = '/')⟩

/-- A tree of browser frames (ids are CDP frame ids, abstracted to `Nat`). -/
inductive FrameT where
  | mk (fid : Nat) (children : List FrameT)

def FrameT.fid : FrameT → Nat
  | .mk f _ => f

def FrameT.children : FrameT → List FrameT
  | .mk _ c => c

/-- What the `try` block of the snapshot loop produces for one frame when no
exception is raised. -/
structure FrameData where
  simplified : String
  xpathMap : List (String × String)
  urlMap : List (String × String)
  frameXpath : String
  backendNodeId : Option Nat
  frameId : Option String
  deriving Repr, DecidableEq

/-- One collected `FrameSnapshot`. -/
structure Snapshot where
  fid : Nat
  tree : String
  xpathMap : List (String × String)
  urlMap : List (String × String)
  frameXpath : String
  backendNodeId : Option Nat
  frameId : Option String
  chain : List String
  deriving Repr, DecidableEq

/-- The message logged when a frame's tree fetch raises. -/
def failLog (isMain : Bool) (err : String) : String :=
  "failed to get AX tree for " ++ (if isMain then "main frame" else "iframe")
    ++ ": " ++ err

mutual

/-- Number of frames in a tree. -/
def frameCount : FrameT → Nat
  | .mk _ children => 1 + frameCountList children

/-- Number of frames in a forest. -/
def frameCountList : List FrameT → Nat
  | [] => 0
  | c :: cs => frameCount c + frameCountList cs

end

theorem frameCount_destruct (f : FrameT) :
    frameCount f = 1 + frameCountList f.children := by
  obtain ⟨fid, children⟩ := f
  rw [frameCount]
  rfl

theorem frameCountList_append (l r : List FrameT) :
    frameCountList (l ++ r) = frameCountList l + frameCountList r := by
  induction l with
  | nil => rw [List.nil_append, frameCountList]; omega
  | cons c cs ih =>
    rw [List.cons_append, frameCountList, frameCountList, ih]
    omega

theorem frameCountList_reverse (l : List FrameT) :
    frameCountList l.reverse = frameCountList l := by
  induction l with
  | nil => rfl
  | cons c cs ih =>
    rw [List.reverse_cons, frameCountList_append, ih, frameCountList,
      frameCountList, frameCountList]
    omega

/-- Total frame count on the traversal stack. -/
def stackFrames : List (FrameT × List String × Bool) → Nat
  | [] => 0
  | e :: rest => frameCount e.1 + stackFrames rest

theorem stackFrames_append (l r : List (FrameT × List String × Bool)) :
    stackFrames (l ++ r) = stackFrames l + stackFrames r := by
  induction l with
  | nil => rw [List.nil_append, stackFrames]; omega
  | cons e es ih =>
    rw [List.cons_append, stackFrames, stackFrames, ih]
    omega

theorem stackFrames_map (l : List FrameT) (p : List String × Bool) :
    stackFrames (l.map (fun c => (c, p))) = frameCountList l := by
  induction l with
  | nil => rfl
  | cons c cs ih =>
    rw [List.map_cons, stackFrames, frameCountList, ih]

/-- The depth-first snapshot loop (step 2): pop a frame, enqueue its
children, then try the per-frame fetch; a success is appended as a snapshot,
a failure is logged and the frame is omitted. -/
def collectGo (fetch : Nat → Except String FrameData) :
    List (FrameT × List String × Bool) → List Snapshot × List String
  | [] => ([], [])
  | (f, chain, isMain) :: rest =>
    let res := fetch f.fid
    let hop : String :=
      match res with
      | .ok d => if isMain then "/" else d.frameXpath
      | .error _ => ""
    let stack2 := (f.children.reverse.map (fun c => (c, hop :: chain, false)))
      ++ rest
    match res with
    | .ok d =>
      let p := collectGo fetch stack2
      ({ fid := f.fid, tree := pyRstrip d.simplified,
         xpathMap := d.xpathMap, urlMap := d.urlMap,
         frameXpath := if isMain then "/" else d.frameXpath,
         backendNodeId := if isMain then none else d.backendNodeId,
         frameId := if isMain then none else d.frameId,
         chain := chain } :: p.1, p.2)
    | .error e =>
      let p := collectGo fetch stack2
      (p.1, failLog isMain e :: p.2)
termination_by stack => stackFrames stack
decreasing_by
  all_goals
  · rw [stackFrames_append, stackFrames_map, frameCountList_reverse,
      stackFrames]
    have h1 := frameCount_destruct f
    have h2 : frameCount ((f, chain, isMain)).1 = frameCount f := rfl
    omega

/-- `full_prefix`, folded over the materialised `seg` chain. -/
def fullPrefix : List String → String
  | [] => ""
  | hop :: rest =>
    let above := fullPrefix rest
    if hop = "/" then above
    else if above ≠ "" then pyRstripSlash above ++ "/" ++ pyLstripSlash hop
    else hop

/-- The absolute prefix of one snapshot's frame:
`'' if frameXpath == '/' else full_prefix(parent) + frameXpath`. -/
def framePrefix (s : Snapshot) : String :=
  if s.frameXpath = "/" then "" else fullPrefix s.chain ++ s.frameXpath

/-- One merged `combinedXpathMap` value. -/
def mergeEntryValue (pfx loc : String) : String :=
  if loc = "" then (if pfx ≠ "" then pfx else "/")
  else if pfx ≠ "" then pyRstripSlash pfx ++ "/" ++ pyLstripSlash loc
  else loc

/-- Step 3 of the merge: all per-frame xpath maps rebased onto the frames'
absolute prefixes (as the list of performed dict writes). -/
def mergeXpathMaps (snaps : List Snapshot) : List (String × String) :=
  snaps.foldl
    (fun acc s =>
      acc ++ s.xpathMap.map (fun p => (p.1, mergeEntryValue (framePrefix s) p.2)))
    []

/-- Step 3 of the merge for the url maps. -/
def mergeUrlMaps (snaps : List Snapshot) : List (String × String) :=
  snaps.foldl (fun acc s => acc ++ s.urlMap) []

/-- Step 4: EncodedId ↦ subtree outline over non-main snapshots, threading
the page's frame-ordinal table through `encode_with_frame_id`. -/
def buildIdToTree (st : FidOrdinals) (snaps : List Snapshot) :
    List (String × String) × FidOrdinals :=
  snaps.foldl
    (fun acc s =>
      match s.backendNodeId, s.frameId with
      | some b, some fid =>
        let r := encodeWithFrameId acc.2 (some fid) b
        (dictWrite acc.1 r.1 s.tree, r.2)
      | _, _ => acc)
    ([], st)

/-- The merged result of `get_accessibility_tree_with_frames`. -/
structure CombinedA11yOut where
  combinedTree : String
  combinedXpathMap : List (String × String)
  combinedUrlMap : List (String × String)
  logs : List String
  snapshots : List Snapshot

/-- `get_accessibility_tree_with_frames(root_xpath=None)`: collect snapshots
depth-first (per-frame failures caught and logged), merge the maps, build the
id ↦ subtree table and stitch the combined outline.  The `Except` result
models exceptions escaping to the caller: no component outside the per-frame
`try` can raise, so the function always returns `.ok`. -/
def getAccessibilityTreeWithFrames (st : FidOrdinals)
    (fetch : Nat → Except String FrameData) (main : FrameT) :
    Except String CombinedA11yOut :=
  let c := collectGo fetch [(main, [], true)]
  let it := buildIdToTree st c.1
  let tree :=
    match c.1.find? (fun s => s.frameXpath == "/") with
    | some r => injectSubtrees r.tree it.1
    | none =>
      match c.1 with
      | s :: _ => s.tree
      | [] => ""
  .ok { combinedTree := tree, combinedXpathMap := mergeXpathMaps c.1,
        combinedUrlMap := mergeUrlMaps c.1, logs := c.2, snapshots := c.1 }

theorem collectGo_nil (fetch : Nat → Except String FrameData) :
    collectGo fetch [] = ([], []) := by
  rw [collectGo]

theorem collectGo_cons_ok {fetch : Nat → Except String FrameData}
    {f : FrameT} {chain : List String} {isMain : Bool}
    {rest : List (FrameT × List String × Bool)} {d : FrameData}
    (h : fetch f.fid = Except.ok d) :
    collectGo fetch ((f, chain, isMain) :: rest)
      = ((⟨f.fid, pyRstrip d.simplified, d.xpathMap, d.urlMap,
            if isMain then "/" else d.frameXpath,
            if isMain then none else d.backendNodeId,
            if isMain then none else d.frameId, chain⟩ : Snapshot)
          :: (collectGo fetch
              (f.children.reverse.map
                (fun c => (c, (if isMain then "/" else d.frameXpath) :: chain,
                  false)) ++ rest)).1,
        (collectGo fetch
          (f.children.reverse.map
            (fun c => (c, (if isMain then "/" else d.frameXpath) :: chain,
              false)) ++ rest)).2) := by
  rw [collectGo]
  simp only [h]

theorem collectGo_cons_err {fetch : Nat → Except String FrameData}
    {f : FrameT} {chain : List String} {isMain : Bool}
    {rest : List (FrameT × List String × Bool)} {e : String}
    (h : fetch f.fid = Except.error e) :
    collectGo fetch ((f, chain, isMain) :: rest)
      = ((collectGo fetch
            (f.children.reverse.map (fun c => (c, "" :: chain, false))
              ++ rest)).1,
        failLog isMain e
          :: (collectGo fetch
            (f.children.reverse.map (fun c => (c, "" :: chain, false))
              ++ rest)).2) := by
  rw [collectGo]
  simp only [h]

/-- Every snapshot stems from a successful fetch, and snapshots and failure
logs together account for exactly one entry per traversed frame. -/
theorem collectGo_spec (fetch : Nat → Except String FrameData) :
    ∀ (n : Nat) (stack : List (FrameT × List String × Bool)),
      stackFrames stack ≤ n →
      ((collectGo fetch stack).1.length + (collectGo fetch stack).2.length
        = stackFrames stack)
      ∧ (∀ s ∈ (collectGo fetch stack).1, (fetch s.fid).isOk = true) := by
  intro n
  induction n with
  | zero =>
    intro stack hst
    cases stack with
    | nil =>
      rw [collectGo_nil]
      exact ⟨rfl, by intro s hs; simp at hs⟩
    | cons e rest =>
      exfalso
      rw [stackFrames] at hst
      have := frameCount_destruct e.1
      omega
  | succ n ih =>
    intro stack hst
    cases stack with
    | nil =>
      rw [collectGo_nil]
      exact ⟨rfl, by intro s hs; simp at hs⟩
    | cons e rest =>
      obtain ⟨f, chain, isMain⟩ := e
      rw [stackFrames] at hst
      have hcd := frameCount_destruct f
      have hfst : frameCount (((f, chain, isMain)
          : FrameT × List String × Bool)).1 = frameCount f := rfl
      cases hres : fetch f.fid with
      | ok d =>
        rw [collectGo_cons_ok hres]
        have hst2 : stackFrames (f.children.reverse.map
            (fun c => (c, (if isMain then "/" else d.frameXpath) :: chain,
              false)) ++ rest) ≤ n := by
          rw [stackFrames_append, stackFrames_map, frameCountList_reverse]
          omega
        have ih2 := ih _ hst2
        have h1 := ih2.1
        rw [stackFrames_append, stackFrames_map, frameCountList_reverse] at h1
        constructor
        · simp only [List.length_cons]
          rw [stackFrames]
          omega
        · intro s hs
          rcases List.mem_cons.1 hs with rfl | hs2
          · show (fetch f.fid).isOk = true
            rw [hres]
            rfl
          · exact ih2.2 s hs2
      | error e2 =>
        rw [collectGo_cons_err hres]
        have hst2 : stackFrames (f.children.reverse.map
            (fun c => (c, "" :: chain, false)) ++ rest) ≤ n := by
          rw [stackFrames_append, stackFrames_map, frameCountList_reverse]
          omega
        have ih2 := ih _ hst2
        have h1 := ih2.1
        rw [stackFrames_append, stackFrames_map, frameCountList_reverse] at h1
        constructor
        · simp only [List.length_cons]
          rw [stackFrames]
          omega
        · exact ih2.2

/-- **C3 counterexample.** A failing main-frame fetch does not propagate to
the caller: `get_accessibility_tree_with_frames` still returns (`.ok`), with
the main frame omitted from the merge and one failure log. -/
theorem c3_main_frame_error_counterexample :
    getAccessibilityTreeWithFrames []
        (fun _ => Except.error "CDP session closed") (.mk 0 [])
      = Except.ok
          { combinedTree := "", combinedXpathMap := [], combinedUrlMap := [],
            logs := [failLog true "CDP session closed"], snapshots := [] } := by
  rw [getAccessibilityTreeWithFrames,
    collectGo_cons_err (show (fun _ => Except.error (ε := String)
      "CDP session closed") (FrameT.fid (.mk 0 [])) = Except.error
      "CDP session closed" from rfl)]
  simp [collectGo_nil, FrameT.children, buildIdToTree, mergeXpathMaps,
    mergeUrlMaps]

/-- **C3 (amended).** In `get_accessibility_tree_with_frames`, for every
frame — main frame included — a failing per-frame tree fetch is caught and
logged and that frame's snapshot is simply omitted from the merged result;
the function always returns a merged result, every retained snapshot stems
from a successful fetch, the snapshots and logs together account for every
traversed frame, and a main-frame failure contributes the first log while the
snapshots reduce to those of the child frames alone. -/
theorem c3_frame_fetch_errors (st : FidOrdinals)
    (fetch : Nat → Except String FrameData) (main : FrameT) :
    ∃ r, getAccessibilityTreeWithFrames st fetch main = Except.ok r
      ∧ (∀ s ∈ r.snapshots, (fetch s.fid).isOk = true)
      ∧ r.snapshots.length + r.logs.length = frameCount main
      ∧ (∀ e, fetch main.fid = Except.error e →
          r.logs.head? = some (failLog true e)
          ∧ r.snapshots = (collectGo fetch
              (main.children.reverse.map (fun c => (c, [""], false)))).1) := by
  refine ⟨_, rfl, ?_, ?_, ?_⟩
  · intro s hs
    exact (collectGo_spec fetch (stackFrames [(main, [], true)]) _ le_rfl).2 s hs
  · have h := (collectGo_spec fetch (stackFrames [(main, [], true)])
      [(main, [], true)] le_rfl).1
    rw [stackFrames, stackFrames] at h
    have hfst : frameCount (((main, [], true)
        : FrameT × List String × Bool)).1 = frameCount main := rfl
    simp only [CombinedA11yOut.snapshots, CombinedA11yOut.logs]
    omega
  · intro e he
    simp only [CombinedA11yOut.snapshots, CombinedA11yOut.logs]
    rw [collectGo_cons_err he]
    constructor
    · rfl
    · rw [List.append_nil]

theorem str_data_append (a b : String) : (a ++ b).data = a.data ++ b.data := rfl

theorem string_ne_empty_data {s : String} (h : s ≠ "") : s.data ≠ [] :=
  fun hd => h (String.ext hd)

/-- A well-formed iframe hop: either the root marker `/` or a non-empty xpath
not ending in a slash (as produced for an `<iframe>` element). -/
def HopOk (h : String) : Prop :=
  h = "/" ∨ (h ≠ "" ∧ h.data.getLast? ≠ some '/')

instance (s : String) : Decidable (HopOk s) :=
  inferInstanceAs (Decidable (s = "/" ∨ (s ≠ "" ∧ s.data.getLast? ≠ some '/')))

theorem pyRstripSlash_eq_self {s : String} (h : s.data.getLast? ≠ some '/') :
    pyRstripSlash s = s := by
  rw [← List.head?_reverse] at h
  have hd : (s.data.reverse.dropWhile (fun c => c = '/')).reverse = s.data := by
    cases hrev : s.data.reverse with
    | nil =>
      simp only [List.dropWhile_nil, List.reverse_nil]
      exact (List.reverse_eq_nil_iff.1 hrev).symm
    | cons a t =>
      rw [hrev] at h
      have ha : a ≠ '/' := fun hh => h (by rw [List.head?_cons, hh])
      rw [List.dropWhile_cons, if_neg (by simp [ha]), ← hrev,
        List.reverse_reverse]
  exact String.ext hd

theorem pyLstripSlash_getLast {s : String} (hne : s ≠ "")
    (h : s.data.getLast? ≠ some '/') :
    (pyLstripSlash s).data.getLast? = s.data.getLast?
    ∧ (pyLstripSlash s).data ≠ [] := by
  have hdata : (pyLstripSlash s).data = s.data.dropWhile (fun c => c = '/') := rfl
  have hdne : s.data.dropWhile (fun c => decide (c = '/')) ≠ [] := by
    intro hnil
    have hall := List.dropWhile_eq_nil_iff.1 hnil
    cases hq : s.data.getLast? with
    | none => exact string_ne_empty_data hne (List.getLast?_eq_none_iff.1 hq)
    | some c =>
      have hc : c ∈ s.data := List.mem_of_mem_getLast? hq
      have := hall c hc
      simp at this
      exact h (by rw [hq, this])
  refine ⟨?_, by rw [hdata]; exact hdne⟩
  rw [hdata]
  obtain ⟨t, ht⟩ := List.dropWhile_suffix (l := s.data) (fun c => c = '/')
  conv_rhs => rw [← ht]
  rw [List.getLast?_append]
  cases hq : (s.data.dropWhile (fun c => decide (c = '/'))).getLast? with
  | none => exact absurd (List.getLast?_eq_none_iff.1 hq) hdne
  | some c => rfl

theorem fullPrefix_getLast (chain : List String)
    (h : ∀ x ∈ chain, HopOk x) :
    (fullPrefix chain).data.getLast? ≠ some '/' := by
  induction chain with
  | nil =>
    intro hc
    simp [fullPrefix] at hc
  | cons hop rest ih =>
    have hh := h hop (List.mem_cons_self hop rest)
    have hrest := ih (fun x hx => h x (List.mem_cons_of_mem _ hx))
    simp only [fullPrefix]
    by_cases h1 : hop = "/"
    · rw [if_pos h1]
      exact hrest
    rw [if_neg h1]
    rcases hh with hcase | ⟨hne, hlast⟩
    · exact absurd hcase h1
    by_cases h2 : fullPrefix rest ≠ ""
    · rw [if_pos h2]
      obtain ⟨hgl, hdne⟩ := pyLstripSlash_getLast hne hlast
      rw [str_data_append, List.getLast?_append]
      cases hq : (pyLstripSlash hop).data.getLast? with
      | none => exact absurd (List.getLast?_eq_none_iff.1 hq) hdne
      | some c =>
        rw [hgl] at hq
        rw [hq] at hlast
        exact hlast
    · rw [if_neg h2]
      exact hlast

theorem mergeEntryValue_prefix (pfx loc : String)
    (h : pfx.data.getLast? ≠ some '/') :
    pfx.data <+: (mergeEntryValue pfx loc).data := by
  unfold mergeEntryValue
  by_cases h0 : loc = ""
  · rw [if_pos h0]
    by_cases h1 : pfx ≠ ""
    · rw [if_pos h1]
    · rw [if_neg h1]
      push_neg at h1
      rw [h1]
      exact List.nil_prefix
  · rw [if_neg h0]
    by_cases h1 : pfx ≠ ""
    · rw [if_pos h1, pyRstripSlash_eq_self h, str_data_append,
        str_data_append, List.append_assoc]
      exact List.prefix_append _ _
    · rw [if_neg h1]
      push_neg at h1
      rw [h1]
      exact List.nil_prefix

theorem mergeXpathMaps_acc (snaps : List Snapshot)
    (acc : List (String × String)) :
    snaps.foldl
      (fun acc s =>
        acc ++ s.xpathMap.map
          (fun p => (p.1, mergeEntryValue (framePrefix s) p.2)))
      acc
    = acc ++ mergeXpathMaps snaps := by
  induction snaps generalizing acc with
  | nil => simp [mergeXpathMaps]
  | cons s ss ih =>
    rw [mergeXpathMaps, List.foldl_cons, List.foldl_cons, ih, ih,
      List.nil_append, List.append_assoc]

theorem mem_mergeXpathMaps {snaps : List Snapshot} {s : Snapshot}
    (hs : s ∈ snaps) {q : String × String} (hq : q ∈ s.xpathMap) :
    (q.1, mergeEntryValue (framePrefix s) q.2) ∈ mergeXpathMaps snaps := by
  induction snaps with
  | nil => exact absurd hs (List.not_mem_nil s)
  | cons t ts ih =>
    have hsplit : mergeXpathMaps (t :: ts)
        = t.xpathMap.map (fun p => (p.1, mergeEntryValue (framePrefix t) p.2))
          ++ mergeXpathMaps ts := by
      rw [mergeXpathMaps, List.foldl_cons, mergeXpathMaps_acc, List.nil_append]
    rw [hsplit]
    rcases List.mem_cons.1 hs with rfl | hmem
    · exact List.mem_append_left _ (List.mem_map_of_mem _ hq)
    · exact List.mem_append_right _ (ih hmem)

/-- **C5.** After the merge step, for every snapshot of a non-root frame
(with well-formed hop xpaths), every rebased path the merge records for one
of that frame's EncodedIds carries the frame's absolute prefix
(`full_prefix` of its ancestors followed by its own iframe xpath) as a
string prefix, and that absolute prefix in turn extends the parent chain's
accumulated prefix (containment). -/
theorem c5_merge_prefix_containment (snaps : List Snapshot) (s : Snapshot)
    (hs : s ∈ snaps)
    (hfx : HopOk s.frameXpath) (hroot : s.frameXpath ≠ "/") :
    (∀ q ∈ s.xpathMap,
      (q.1, mergeEntryValue (framePrefix s) q.2) ∈ mergeXpathMaps snaps
      ∧ (framePrefix s).data <+: (mergeEntryValue (framePrefix s) q.2).data)
    ∧ (fullPrefix s.chain).data <+: (framePrefix s).data := by
  rcases hfx with h1 | ⟨hne, hlast⟩
  · exact absurd h1 hroot
  have hfp : framePrefix s = fullPrefix s.chain ++ s.frameXpath := by
    rw [framePrefix, if_neg hroot]
  have hfpl : (framePrefix s).data.getLast? ≠ some '/' := by
    rw [hfp, str_data_append, List.getLast?_append]
    cases hq : s.frameXpath.data.getLast? with
    | none =>
      exact absurd (List.getLast?_eq_none_iff.1 hq) (string_ne_empty_data hne)
    | some c =>
      rw [hq] at hlast
      exact hlast
  refine ⟨fun q hq => ⟨mem_mergeXpathMaps hs hq,
    mergeEntryValue_prefix _ _ hfpl⟩, ?_⟩
  rw [hfp, str_data_append]
  exact List.prefix_append _ _

def c5snap : Snapshot :=
  { fid := 7, tree := "button", xpathMap := [("1-5", "/div[2]/button")],
    urlMap := [], frameXpath := "/html/body/iframe[1]",
    backendNodeId := some 5, frameId := some "F", chain := ["/"] }

/-- Witness for C5 at a one-iframe page: the merged entry for EncodedId
`1-5` is `/html/body/iframe[1]/div[2]/button`, which extends the frame's
absolute prefix `/html/body/iframe[1]`. -/
theorem c5_merge_prefix_containment_witness :
    ((("1-5", "/div[2]/button") : String × String) ∈ c5snap.xpathMap)
    ∧ ((("1-5",
        mergeEntryValue (framePrefix c5snap) "/div[2]/button") : String × String)
          ∈ mergeXpathMaps [c5snap]
      ∧ (framePrefix c5snap).data
          <+: (mergeEntryValue (framePrefix c5snap) "/div[2]/button").data)
    ∧ (fullPrefix c5snap.chain).data <+: (framePrefix c5snap).data := by
  have h := c5_merge_prefix_containment [c5snap] c5snap
    (List.mem_singleton.2 rfl) (by decide) (by decide)
  exact ⟨by decide, h.1 ("1-5", "/div[2]/button") (by decide), h.2⟩

/-- `lc`: per-character lowercase conversion. -/
def lc (s : String) : String :=
  ⟨s.data.map Char.toLower⟩

/-- A CDP DOM node as walked by `build_backend_id_maps`. A missing or falsy
`backendNodeId` is modelled as `0`; `contentDocument` and `frameId` are
optional as in the protocol payload. -/
inductive DOMNode where
  | mk (backendNodeId : Nat) (nodeName : String) (nodeType : Nat)
      (frameId : Option String) (contentDocument : Option DOMNode)
      (shadowRoots : List DOMNode) (children : List DOMNode)

def DOMNode.backendNodeId : DOMNode → Nat
  | .mk b _ _ _ _ _ _ => b

def DOMNode.nodeName : DOMNode → String
  | .mk _ n _ _ _ _ _ => n

def DOMNode.nodeType : DOMNode → Nat
  | .mk _ _ t _ _ _ _ => t

def DOMNode.frameId : DOMNode → Option String
  | .mk _ _ _ f _ _ _ => f

def DOMNode.contentDocument : DOMNode → Option DOMNode
  | .mk _ _ _ _ c _ _ => c

def DOMNode.shadowRoots : DOMNode → List DOMNode
  | .mk _ _ _ _ _ s _ => s

def DOMNode.children : DOMNode → List DOMNode
  | .mk _ _ _ _ _ _ c => c

/-- `join_step`: append an XPath step, avoiding a tripled slash after a
shadow-root `//` base. -/
def endsWithSlashSlash (s : String) : Bool :=
  match s.data.reverse with
  | '/' :: '/' :: _ => true
  | _ => false

def join_step (base step : String) : String :=
  if endsWithSlashSlash base then base ++ step else base ++ "/" ++ step

/-- Python dict write for the sibling counter keyed by
`f"{nodeType}:{tag}"` (the key modelled as the pair, on which that format
string is injective). -/
def ctrWrite (m : List ((Nat × String) × Nat)) (key : Nat × String)
    (v : Nat) : List ((Nat × String) × Nat) :=
  if (m.lookup key).isSome then
    m.map (fun p => if p.1 == key then (p.1, v) else p)
  else m ++ [(key, v)]

/-- Pending stack entries for a node's children in traversal order, each
with its per-sibling XPath segment (`text()[i]`, `comment()[i]`,
`*[name()=...][i]` for qualified tags, else `tag[i]`). -/
def childEntries (fid : Option String) (path : String) :
    List ((Nat × String) × Nat) → List DOMNode →
    List (DOMNode × String × Option String)
  | _, [] => []
  | ctr, c :: cs =>
    let tag := lc c.nodeName
    let key := (c.nodeType, tag)
    let idx := (ctr.lookup key).getD 0 + 1
    let seg :=
      if c.nodeType == 3 then "text()[" ++ (⟨decChars idx⟩ : String) ++ "]"
      else if c.nodeType == 8 then
        "comment()[" ++ (⟨decChars idx⟩ : String) ++ "]"
      else if ':' ∈ tag.data then
        "*[name()=\x27" ++ tag ++ "\x27][" ++ (⟨decChars idx⟩ : String) ++ "]"
      else tag ++ "[" ++ (⟨decChars idx⟩ : String) ++ "]"
    (c, join_step path seg, fid) :: childEntries fid path (ctrWrite ctr key idx) cs

/-- `contentDocument.get('frameId') or fid`: Python falsy fallback. -/
def childFid (cdFid : Option String) (fid : Option String) : Option String :=
  match cdFid with
  | some f => if f = "" then fid else some f
  | none => fid

/-- Everything one processed node pushes, in pop order: children left to
right, then shadow roots (experimental mode only, reversed by the stack
discipline), then the iframe content document. -/
def pushEntries (experimental : Bool) (node : DOMNode) (path : String)
    (fid : Option String) : List (DOMNode × String × Option String) :=
  childEntries fid path [] node.children
    ++ (if experimental then
          node.shadowRoots.map (fun sr => (sr, path ++ "//", fid))
        else []).reverse
    ++ (match node.contentDocument with
        | some cd =>
          if node.nodeName ≠ "" ∧ lc node.nodeName = "iframe" then
            [(cd, "", childFid cd.frameId fid)]
          else []
        | none => [])

mutual

/-- Total number of nodes hanging off one DOM node. -/
def nodeCount : DOMNode → Nat
  | .mk _ _ _ _ cd sr ch =>
    1 + optNodeCount cd + nodeCountList sr + nodeCountList ch

def optNodeCount : Option DOMNode → Nat
  | none => 0
  | some d => nodeCount d

def nodeCountList : List DOMNode → Nat
  | [] => 0
  | d :: ds => nodeCount d + nodeCountList ds

end

/-- Total node count of a pending DFS stack. -/
def stackCount : List (DOMNode × String × Option String) → Nat
  | [] => 0
  | e :: rest => nodeCount e.1 + stackCount rest

theorem nodeCount_destruct (n : DOMNode) :
    nodeCount n = 1 + optNodeCount n.contentDocument
      + nodeCountList n.shadowRoots + nodeCountList n.children := by
  cases n
  rfl

theorem nodeCount_pos (n : DOMNode) : 0 < nodeCount n := by
  rw [nodeCount_destruct]
  omega

theorem stackCount_append (l r : List (DOMNode × String × Option String)) :
    stackCount (l ++ r) = stackCount l + stackCount r := by
  induction l with
  | nil => rw [List.nil_append, stackCount]; omega
  | cons e es ih =>
    rw [List.cons_append, stackCount, stackCount, ih]
    omega

theorem stackCount_childEntries (fid : Option String) (path : String) :
    ∀ (ctr : List ((Nat × String) × Nat)) (kids : List DOMNode),
      stackCount (childEntries fid path ctr kids) = nodeCountList kids := by
  intro ctr kids
  induction kids generalizing ctr with
  | nil => rfl
  | cons c cs ih =>
    rw [childEntries]
    simp only [stackCount, nodeCountList]
    rw [ih]

theorem stackCount_map (p : String) (fid : Option String)
    (l : List DOMNode) :
    stackCount (l.map (fun sr => (sr, p, fid))) = nodeCountList l := by
  induction l with
  | nil => rfl
  | cons d ds ih =>
    rw [List.map_cons, stackCount, nodeCountList, ih]

theorem stackCount_reverse (l : List (DOMNode × String × Option String)) :
    stackCount l.reverse = stackCount l := by
  induction l with
  | nil => rfl
  | cons e es ih =>
    rw [List.reverse_cons, stackCount_append, stackCount, stackCount,
      stackCount, ih]
    omega

theorem stackCount_pushEntries_lt (experimental : Bool) (node : DOMNode)
    (path : String) (fid : Option String) :
    stackCount (pushEntries experimental node path fid) < nodeCount node := by
  rw [pushEntries, stackCount_append, stackCount_append,
    stackCount_childEntries, nodeCount_destruct]
  have h1 : stackCount
      ((if experimental then
          node.shadowRoots.map (fun sr => (sr, path ++ "//", fid))
        else []).reverse) ≤ nodeCountList node.shadowRoots := by
    rw [stackCount_reverse]
    cases experimental with
    | true => rw [if_pos rfl, stackCount_map]
    | false => rw [if_neg (by simp)]; simp [stackCount]
  have h2 : stackCount
      (match node.contentDocument with
        | some cd =>
          if node.nodeName ≠ "" ∧ lc node.nodeName = "iframe" then
            [(cd, "", childFid cd.frameId fid)]
          else []
        | none => []) ≤ optNodeCount node.contentDocument := by
    cases hcd : node.contentDocument with
    | none => simp [stackCount]
    | some cd =>
      show stackCount
          (if node.nodeName ≠ "" ∧ lc node.nodeName = "iframe" then
            [(cd, "", childFid cd.frameId fid)]
          else []) ≤ optNodeCount (some cd)
      by_cases hif : node.nodeName ≠ "" ∧ lc node.nodeName = "iframe"
      · rw [if_pos hif]
        simp only [stackCount, optNodeCount]
        omega
      · rw [if_neg hif]
        simp [stackCount, optNodeCount]
  omega

/-- The DFS loop of `build_backend_id_maps`: pop an entry, skip falsy
backend ids, encode `(frameId, backendNodeId)`, dedupe through the seen
set, record tag name and xpath under the EncodedId, then push the iframe
sub-document, shadow roots and children. Returns
`(tagNameMap, xpathMap, registry, seen)`. -/
def buildGo (experimental : Bool) (st : FidOrdinals) (seen : List String)
    (tag xp : List (String × String)) :
    List (DOMNode × String × Option String) →
    List (String × String) × List (String × String) × FidOrdinals × List String
  | [] => (tag, xp, st, seen)
  | (node, path, fid) :: rest =>
    if node.backendNodeId = 0 then buildGo experimental st seen tag xp rest
    else
      let r := encodeWithFrameId st fid node.backendNodeId
      if r.1 ∈ seen then buildGo experimental r.2 seen tag xp rest
      else
        buildGo experimental r.2 (r.1 :: seen)
          (dictWrite tag r.1 (lc node.nodeName))
          (dictWrite xp r.1 path)
          (pushEntries experimental node path fid ++ rest)
termination_by stack => stackCount stack
decreasing_by
  · have h2 : nodeCount (((node, path, fid)
        : DOMNode × String × Option String)).1 = nodeCount node := rfl
    rw [stackCount]
    have := nodeCount_pos node
    omega
  · have h2 : nodeCount (((node, path, fid)
        : DOMNode × String × Option String)).1 = nodeCount node := rfl
    rw [stackCount]
    have := nodeCount_pos node
    omega
  · have h2 : nodeCount (((node, path, fid)
        : DOMNode × String × Option String)).1 = nodeCount node := rfl
    rw [stackCount, stackCount_append]
    have := stackCount_pushEntries_lt experimental node path fid
    omega

/-- The DFS phase of `build_backend_id_maps`, from the initial stack entry
`(start_node, '', root_fid)` with empty maps and seen set. -/
def build_backend_id_maps (experimental : Bool) (st : FidOrdinals)
    (startNode : DOMNode) (rootFid : Option String) :
    List (String × String) × List (String × String) × FidOrdinals
      × List String :=
  buildGo experimental st [] [] [] [(startNode, "", rootFid)]

theorem lookup_eq_none_of_not_fst {m : List (String × String)} {k : String}
    (h : k ∉ m.map Prod.fst) : m.lookup k = none := by
  induction m with
  | nil => rfl
  | cons p ps ih =>
    obtain ⟨a, b⟩ := p
    simp only [List.map_cons, List.mem_cons] at h
    push_neg at h
    rw [List.lookup]
    have hk : (k == a) = false := by simp [h.1]
    rw [hk]
    exact ih h.2

theorem dictWrite_fresh {m : List (String × String)} {k : String}
    (h : k ∉ m.map Prod.fst) (v : String) :
    dictWrite m k v = m ++ [(k, v)] := by
  rw [dictWrite, lookup_eq_none_of_not_fst h]
  simp

theorem buildGo_nil (experimental : Bool) (st : FidOrdinals)
    (seen : List String) (tag xp : List (String × String)) :
    buildGo experimental st seen tag xp [] = (tag, xp, st, seen) := by
  rw [buildGo]

theorem buildGo_falsy {node : DOMNode} (h : node.backendNodeId = 0)
    (experimental : Bool) (st : FidOrdinals) (seen : List String)
    (tag xp : List (String × String)) {path : String} {fid : Option String}
    {rest : List (DOMNode × String × Option String)} :
    buildGo experimental st seen tag xp ((node, path, fid) :: rest)
      = buildGo experimental st seen tag xp rest := by
  rw [buildGo]
  rw [if_pos h]

theorem buildGo_seen {node : DOMNode} {st : FidOrdinals}
    {seen : List String} {fid : Option String}
    (h0 : ¬ node.backendNodeId = 0)
    (h : (encodeWithFrameId st fid node.backendNodeId).1 ∈ seen)
    (experimental : Bool) (tag xp : List (String × String))
    {path : String} {rest : List (DOMNode × String × Option String)} :
    buildGo experimental st seen tag xp ((node, path, fid) :: rest)
      = buildGo experimental (encodeWithFrameId st fid node.backendNodeId).2
          seen tag xp rest := by
  rw [buildGo, if_neg h0]
  exact if_pos h

theorem buildGo_push {node : DOMNode} {st : FidOrdinals}
    {seen : List String} {fid : Option String}
    (h0 : ¬ node.backendNodeId = 0)
    (h : (encodeWithFrameId st fid node.backendNodeId).1 ∉ seen)
    (experimental : Bool) (tag xp : List (String × String))
    {path : String} {rest : List (DOMNode × String × Option String)} :
    buildGo experimental st seen tag xp ((node, path, fid) :: rest)
      = buildGo experimental (encodeWithFrameId st fid node.backendNodeId).2
          ((encodeWithFrameId st fid node.backendNodeId).1 :: seen)
          (dictWrite tag (encodeWithFrameId st fid node.backendNodeId).1
            (lc node.nodeName))
          (dictWrite xp (encodeWithFrameId st fid node.backendNodeId).1 path)
          (pushEntries experimental node path fid ++ rest) := by
  rw [buildGo, if_neg h0]
  exact if_neg h

/-- Both maps always carry exactly the seen EncodedIds as keys, in insertion
order, without duplicates. -/
theorem buildGo_keys (experimental : Bool) :
    ∀ (n : Nat) (stack : List (DOMNode × String × Option String))
      (st : FidOrdinals) (seen : List String)
      (tag xp : List (String × String)),
      stackCount stack ≤ n →
      tag.map Prod.fst = seen.reverse →
      xp.map Prod.fst = seen.reverse →
      seen.Nodup →
      ((buildGo experimental st seen tag xp stack).1.map Prod.fst
          = (buildGo experimental st seen tag xp stack).2.2.2.reverse)
      ∧ ((buildGo experimental st seen tag xp stack).2.1.map Prod.fst
          = (buildGo experimental st seen tag xp stack).2.2.2.reverse)
      ∧ (buildGo experimental st seen tag xp stack).2.2.2.Nodup := by
  intro n
  induction n with
  | zero =>
    intro stack st seen tag xp hst h1 h2 h3
    cases stack with
    | nil =>
      rw [buildGo_nil]
      exact ⟨h1, h2, h3⟩
    | cons e rest =>
      exfalso
      rw [stackCount] at hst
      have := nodeCount_pos e.1
      omega
  | succ n ih =>
    intro stack st seen tag xp hst h1 h2 h3
    cases stack with
    | nil =>
      rw [buildGo_nil]
      exact ⟨h1, h2, h3⟩
    | cons e rest =>
      obtain ⟨node, path, fid⟩ := e
      rw [stackCount] at hst
      have hpos := nodeCount_pos node
      have hfst : nodeCount (((node, path, fid)
          : DOMNode × String × Option String)).1 = nodeCount node := rfl
      by_cases hb : node.backendNodeId = 0
      · rw [buildGo_falsy hb]
        exact ih rest st seen tag xp (by omega) h1 h2 h3
      by_cases hsn : (encodeWithFrameId st fid node.backendNodeId).1 ∈ seen
      · rw [buildGo_seen hb hsn]
        exact ih rest _ seen tag xp (by omega) h1 h2 h3
      · rw [buildGo_push hb hsn]
        have henc := hsn
        have htag : (dictWrite tag
            (encodeWithFrameId st fid node.backendNodeId).1
            (lc node.nodeName)).map Prod.fst
            = ((encodeWithFrameId st fid node.backendNodeId).1
                :: seen).reverse := by
          rw [dictWrite_fresh (by rw [h1, List.mem_reverse]; exact henc),
            List.map_append, h1, List.reverse_cons]
          rfl
        have hxp : (dictWrite xp
            (encodeWithFrameId st fid node.backendNodeId).1 path).map Prod.fst
            = ((encodeWithFrameId st fid node.backendNodeId).1
                :: seen).reverse := by
          rw [dictWrite_fresh (by rw [h2, List.mem_reverse]; exact henc),
            List.map_append, h2, List.reverse_cons]
          rfl
        have hcount : stackCount
            (pushEntries experimental node path fid ++ rest) ≤ n := by
          rw [stackCount_append]
          have := stackCount_pushEntries_lt experimental node path fid
          omega
        exact ih _ _ _ _ _ hcount htag hxp (List.nodup_cons.2 ⟨henc, h3⟩)

mutual

/-- The backend ids the DFS can reach from one node, in traversal order:
the node itself, its children, its shadow roots (experimental mode only),
and — through an `<iframe>` — its content document. -/
def reachBids (experimental : Bool) : DOMNode → List Nat
  | .mk b nm _ _ cd sr ch =>
    b :: (reachBidsList experimental ch
      ++ (if experimental then reachBidsList experimental sr else [])
      ++ (if nm ≠ "" ∧ lc nm = "iframe" then reachBidsOpt experimental cd
          else []))

def reachBidsOpt (experimental : Bool) : Option DOMNode → List Nat
  | none => []
  | some d => reachBids experimental d

def reachBidsList (experimental : Bool) : List DOMNode → List Nat
  | [] => []
  | d :: ds => reachBids experimental d ++ reachBidsList experimental ds

end

/-- All backend ids reachable from a pending DFS stack. -/
def stackReachBids (experimental : Bool) :
    List (DOMNode × String × Option String) → List Nat
  | [] => []
  | e :: rest =>
    reachBids experimental e.1 ++ stackReachBids experimental rest

theorem reachBids_destruct (experimental : Bool) (node : DOMNode) :
    reachBids experimental node
      = node.backendNodeId :: (reachBidsList experimental node.children
          ++ (if experimental then
                reachBidsList experimental node.shadowRoots
              else [])
          ++ (if node.nodeName ≠ "" ∧ lc node.nodeName = "iframe" then
                reachBidsOpt experimental node.contentDocument
              else [])) := by
  cases node
  rfl

theorem stackReachBids_append (experimental : Bool)
    (l r : List (DOMNode × String × Option String)) :
    stackReachBids experimental (l ++ r)
      = stackReachBids experimental l ++ stackReachBids experimental r := by
  induction l with
  | nil => rw [List.nil_append, stackReachBids, List.nil_append]
  | cons e es ih =>
    rw [List.cons_append, stackReachBids, stackReachBids, ih,
      List.append_assoc]

theorem stackReachBids_childEntries (experimental : Bool)
    (fid : Option String) (path : String) :
    ∀ (ctr : List ((Nat × String) × Nat)) (kids : List DOMNode),
      stackReachBids experimental (childEntries fid path ctr kids)
        = reachBidsList experimental kids := by
  intro ctr kids
  induction kids generalizing ctr with
  | nil => rfl
  | cons c cs ih =>
    rw [childEntries]
    simp only [stackReachBids, reachBidsList]
    rw [ih]

theorem stackReachBids_map (experimental : Bool) (p : String)
    (fid : Option String) (l : List DOMNode) :
    stackReachBids experimental (l.map (fun sr => (sr, p, fid)))
      = reachBidsList experimental l := by
  induction l with
  | nil => rfl
  | cons d ds ih =>
    rw [List.map_cons, stackReachBids, reachBidsList, ih]

theorem stackReachBids_reverse_perm (experimental : Bool)
    (l : List (DOMNode × String × Option String)) :
    (stackReachBids experimental l.reverse).Perm
      (stackReachBids experimental l) := by
  induction l with
  | nil => exact List.Perm.refl _
  | cons e es ih =>
    have h2 : stackReachBids experimental [e]
        = reachBids experimental e.1 := by
      rw [stackReachBids, stackReachBids, List.append_nil]
    have h3 : stackReachBids experimental (e :: es)
        = reachBids experimental e.1 ++ stackReachBids experimental es := rfl
    rw [List.reverse_cons, stackReachBids_append, h2, h3]
    exact (ih.append_right _).trans List.perm_append_comm

theorem stackReachBids_pushEntries (experimental : Bool) (node : DOMNode)
    (path : String) (fid : Option String) :
    (stackReachBids experimental (pushEntries experimental node path fid)).Perm
      (reachBidsList experimental node.children
        ++ (if experimental then
              reachBidsList experimental node.shadowRoots
            else [])
        ++ (if node.nodeName ≠ "" ∧ lc node.nodeName = "iframe" then
              reachBidsOpt experimental node.contentDocument
            else [])) := by
  rw [pushEntries, stackReachBids_append, stackReachBids_append,
    stackReachBids_childEntries, List.append_assoc, List.append_assoc]
  apply List.Perm.append_left
  apply List.Perm.append
  · cases experimental with
    | true =>
      rw [if_pos rfl, if_pos rfl]
      exact (stackReachBids_map true (path ++ "//") fid
        node.shadowRoots ▸ stackReachBids_reverse_perm true _)
    | false =>
      rw [if_neg (by simp), if_neg (by simp)]
      exact List.Perm.refl _
  · cases hcd : node.contentDocument with
    | none =>
      show (stackReachBids experimental []).Perm _
      rw [stackReachBids]
      cases hif : decide (node.nodeName ≠ "" ∧ lc node.nodeName = "iframe") with
      | true =>
        rw [if_pos (of_decide_eq_true hif), reachBidsOpt]
      | false =>
        rw [if_neg (of_decide_eq_false hif)]
    | some cd =>
      show (stackReachBids experimental
          (if node.nodeName ≠ "" ∧ lc node.nodeName = "iframe" then
            [(cd, "", childFid cd.frameId fid)]
          else [])).Perm _
      by_cases hif : node.nodeName ≠ "" ∧ lc node.nodeName = "iframe"
      · rw [if_pos hif, if_pos hif, reachBidsOpt]
        show (reachBids experimental cd ++ []).Perm _
        rw [List.append_nil]
      · rw [if_neg hif, if_neg hif]
        exact List.Perm.refl _

/-- When every reachable backend id is truthy and they are pairwise
distinct, neither the falsy guard nor the seen-set ever skips a node, so
the DFS appends exactly one xpath entry per reachable node. -/
theorem buildGo_count (experimental : Bool) :
    ∀ (n : Nat) (stack : List (DOMNode × String × Option String))
      (st : FidOrdinals) (seen : List String)
      (tag xp : List (String × String)),
      stackCount stack ≤ n →
      xp.map Prod.fst = seen.reverse →
      (stackReachBids experimental stack).Nodup →
      (∀ b ∈ stackReachBids experimental stack, b ≠ 0) →
      (∀ s ∈ seen, ∀ b ∈ stackReachBids experimental stack, ∀ o : Nat,
        s ≠ ⟨decChars o ++ '-' :: decChars b⟩) →
      (buildGo experimental st seen tag xp stack).2.1.length
        = xp.length + (stackReachBids experimental stack).length := by
  intro n
  induction n with
  | zero =>
    intro stack st seen tag xp hst hxp hnd hnz hseen
    cases stack with
    | nil =>
      rw [buildGo_nil, stackReachBids]
      simp
    | cons e rest =>
      exfalso
      rw [stackCount] at hst
      have := nodeCount_pos e.1
      omega
  | succ n ih =>
    intro stack st seen tag xp hst hxp hnd hnz hseen
    cases stack with
    | nil =>
      rw [buildGo_nil, stackReachBids]
      simp
    | cons e rest =>
      obtain ⟨node, path, fid⟩ := e
      rw [stackCount] at hst
      have hpos := nodeCount_pos node
      have hfst : nodeCount (((node, path, fid)
          : DOMNode × String × Option String)).1 = nodeCount node := rfl
      set I : List Nat := reachBidsList experimental node.children
          ++ (if experimental then
                reachBidsList experimental node.shadowRoots
              else [])
          ++ (if node.nodeName ≠ "" ∧ lc node.nodeName = "iframe" then
                reachBidsOpt experimental node.contentDocument
              else []) with hI
      have hre : reachBids experimental node = node.backendNodeId :: I := by
        rw [hI]
        exact reachBids_destruct experimental node
      have hold : stackReachBids experimental ((node, path, fid) :: rest)
          = node.backendNodeId
              :: (I ++ stackReachBids experimental rest) := by
        have h0 : stackReachBids experimental ((node, path, fid) :: rest)
            = reachBids experimental node
                ++ stackReachBids experimental rest := rfl
        rw [h0, hre, List.cons_append]
      have hbid0 : node.backendNodeId
          ∈ stackReachBids experimental ((node, path, fid) :: rest) := by
        rw [hold]
        exact List.mem_cons_self _ _
      have hb : ¬ node.backendNodeId = 0 := hnz _ hbid0
      have hrfl : (encodeWithFrameId st fid node.backendNodeId).1
          = ⟨decChars (ordinalForFrameId st fid).1
              ++ '-' :: decChars node.backendNodeId⟩ := rfl
      have hsn : (encodeWithFrameId st fid node.backendNodeId).1 ∉ seen := by
        intro hmem
        exact hseen _ hmem node.backendNodeId hbid0
          (ordinalForFrameId st fid).1 hrfl
      rw [buildGo_push hb hsn]
      have hperm : (stackReachBids experimental
          (pushEntries experimental node path fid ++ rest)).Perm
          (I ++ stackReachBids experimental rest) := by
        rw [hI, stackReachBids_append]
        exact (stackReachBids_pushEntries experimental node path fid).append_right _
      rw [hold] at hnd
      have hnd2 := (List.nodup_cons.1 hnd).2
      have hbidni := (List.nodup_cons.1 hnd).1
      have hcall := ih (pushEntries experimental node path fid ++ rest)
        (encodeWithFrameId st fid node.backendNodeId).2
        ((encodeWithFrameId st fid node.backendNodeId).1 :: seen)
        (dictWrite tag (encodeWithFrameId st fid node.backendNodeId).1
          (lc node.nodeName))
        (dictWrite xp (encodeWithFrameId st fid node.backendNodeId).1 path)
        (by
          rw [stackCount_append]
          have := stackCount_pushEntries_lt experimental node path fid
          omega)
        (by
          rw [dictWrite_fresh (by rw [hxp, List.mem_reverse]; exact hsn),
            List.map_append, hxp, List.reverse_cons]
          rfl)
        (hperm.nodup_iff.2 hnd2)
        (by
          intro b hbm
          exact hnz b (by
            rw [hold]
            exact List.mem_cons_of_mem _ (hperm.mem_iff.1 hbm)))
        (by
          intro s hs b hbm o heq
          have hbIR := hperm.mem_iff.1 hbm
          rcases List.mem_cons.1 hs with rfl | hsseen
          · rw [hrfl] at heq
            have hdata := congrArg String.data heq
            have hsplit := append_dash_inj _ _ (dash_not_mem_decChars _)
              (dash_not_mem_decChars _) hdata
            have hbb : node.backendNodeId = b := decChars_inj hsplit.2
            rw [← hbb] at hbIR
            exact hbidni hbIR
          · exact hseen s hsseen b (by
              rw [hold]
              exact List.mem_cons_of_mem _ hbIR) o heq)
      rw [hcall, hold]
      have hlen2 := hperm.length_eq
      have hxplen : (dictWrite xp
          (encodeWithFrameId st fid node.backendNodeId).1 path).length
          = xp.length + 1 := by
        rw [dictWrite_fresh (by rw [hxp, List.mem_reverse]; exact hsn)]
        simp
      rw [hxplen, hlen2]
      simp only [List.length_cons]
      omega

/-- **C6.** `build_backend_id_maps` keeps its two maps aligned: the key
list of `tagNameMap` always equals the key list of `xpathMap` and carries
no duplicate EncodedId (the seen-set guard); and on a DOM whose reachable
nodes all carry truthy, pairwise-distinct backend ids, `xpathMap` gets
exactly one entry per reachable node. -/
theorem c6_backend_id_maps (experimental : Bool) (st : FidOrdinals)
    (startNode : DOMNode) (rootFid : Option String) :
    ((build_backend_id_maps experimental st startNode rootFid).1.map Prod.fst
      = (build_backend_id_maps experimental st startNode rootFid).2.1.map
          Prod.fst)
    ∧ ((build_backend_id_maps experimental st startNode rootFid).2.1.map
        Prod.fst).Nodup
    ∧ ((reachBids experimental startNode).Nodup →
        (∀ b ∈ reachBids experimental startNode, b ≠ 0) →
        (build_backend_id_maps experimental st startNode rootFid).2.1.length
          = (reachBids experimental startNode).length) := by
  have hkeys := buildGo_keys experimental
    (stackCount [(startNode, "", rootFid)]) [(startNode, "", rootFid)]
    st [] [] [] le_rfl rfl rfl List.nodup_nil
  have hsr : stackReachBids experimental [(startNode, "", rootFid)]
      = reachBids experimental startNode := by
    rw [stackReachBids, stackReachBids, List.append_nil]
  refine ⟨?_, ?_, ?_⟩
  · rw [build_backend_id_maps]
    exact hkeys.1.trans hkeys.2.1.symm
  · rw [build_backend_id_maps, hkeys.2.1]
    exact List.nodup_reverse.2 hkeys.2.2
  · intro hnd hnz
    have hcnt := buildGo_count experimental
      (stackCount [(startNode, "", rootFid)]) [(startNode, "", rootFid)]
      st [] [] [] le_rfl rfl
      (by rw [hsr]; exact hnd) (by rw [hsr]; exact hnz)
      (fun s hs => absurd hs (List.not_mem_nil s))
    rw [build_backend_id_maps, hcnt, hsr]
    simp

def c6doc : DOMNode := .mk 4 "body" 1 (some "F2") none [] []

def c6ifr : DOMNode := .mk 3 "IFRAME" 1 none (some c6doc) [] []

def c6root : DOMNode :=
  .mk 1 "div" 1 none none [] [.mk 2 "span" 1 none none [] [], c6ifr]

/-- Witness for C6 on a four-node DOM (root div, a span, an iframe and its
content document): all reachable backend ids are distinct and truthy, and
the xpath map ends up with exactly four entries. -/
theorem c6_backend_id_maps_witness :
    (reachBids false c6root).Nodup
    ∧ (∀ b ∈ reachBids false c6root, b ≠ 0)
    ∧ (build_backend_id_maps false [] c6root none).2.1.length
        = (reachBids false c6root).length :=
  ⟨by decide, by decide,
    (c6_backend_id_maps false [] c6root none).2.2 (by decide) (by decide)⟩

end BrowserFlow
